import Mathlib

/-!
Shallow embedding of the lolelffs on-disk filesystem engine
(hodgesds/lolelffs) and proofs about it.

The definitions below are translated from the C sources:
  * src/src/lolelffs.h   (layout constants, extent / inode / superblock records)
  * src/extent.c, src/unnamed/part_005  (lolelffs_ext_search)
  * src/src/file.c       (read_folio / writepage codec pipelines, write_begin rollback)
  * src/src/compress.c   (lolelffs_compress_block / lolelffs_decompress_block wrappers)
  * src/unnamed/part_004 (lolelffs_enc_supported and the encrypt/decrypt wrappers)
  * src/dir.c            (bitmap allocator: get_first_free_bits, get_free_inode,
                          get_free_blocks, put_free_bits, put_blocks, put_inode)
  * src/src/mkfs.c       (write_superblock, write_inode_store)

Machine integers are modelled as Nat with explicit reduction modulo 2^32
exactly where the C code performs uint32 arithmetic that may wrap.
-/

namespace Lolelffs

/-! ## Constants from src/src/lolelffs.h -/

/-- Logical block size, 4 KiB (lolelffs.h:11). -/
def BLOCK_SIZE : Nat := 4096

/-- Modulus of C uint32 arithmetic. -/
def U32 : Nat := 4294967296

/-- The value of `(uint32_t)-1`, used by `lolelffs_ext_search` as its
no-space marker. -/
def UINT32_MAX : Nat := U32 - 1

/-- Superblock magic (lolelffs.h:5). -/
def LOLELFFS_MAGIC : Nat := 0x101E1FF5

/-- Compression algorithm ids (lolelffs.h:24-27). -/
def COMP_NONE : Nat := 0
def COMP_LZ4 : Nat := 1
def COMP_ZLIB : Nat := 2
def COMP_ZSTD : Nat := 3

/-- Highest compression algorithm id (compress.c:41). -/
def COMP_MAX_ALGO : Nat := COMP_ZSTD

/-- Encryption algorithm ids (lolelffs.h:30-32). -/
def ENC_NONE : Nat := 0
def ENC_AES256_XTS : Nat := 1
def ENC_CHACHA20_POLY : Nat := 2

/-- Highest encryption algorithm id (part_004:34). -/
def ENC_MAX_ALGO : Nat := ENC_CHACHA20_POLY

/-- Extent flags (lolelffs.h:43-46). -/
def EXT_COMPRESSED : Nat := 1
def EXT_ENCRYPTED : Nat := 2

/-- One extent record; all fields are on-disk unsigned integers
(struct lolelffs_extent, lolelffs.h:49-59). -/
structure Extent where
  ee_block : Nat
  ee_len : Nat
  ee_start : Nat
  ee_comp_algo : Nat
  ee_enc_algo : Nat
  ee_flags : Nat
  ee_meta : Nat
deriving DecidableEq

/-- The all-zero extent record (result of `memset(&extent, 0, sizeof(...))`). -/
def zeroExtent : Extent := ⟨0, 0, 0, 0, 0, 0, 0⟩

/-- Maximum number of extents per index block:
`(LOLELFFS_BLOCK_SIZE - sizeof(uint32_t)) / sizeof(struct lolelffs_extent)`
(lolelffs.h:82-83); the extent record is 24 bytes, so this is 170. -/
def MAX_EXTENTS : Nat := (BLOCK_SIZE - 4) / 24

/-- One extent index block (struct lolelffs_file_ei_block, lolelffs.h:224-227).
The extent array is modelled as a total function; only indices below
`MAX_EXTENTS` are ever consulted by the translated code. -/
structure FileEiBlock where
  nr_files : Nat
  extents : Nat → Extent

/-! ## Extent search (src/extent.c:12-57 and src/unnamed/part_005:83-125;
the two copies of `lolelffs_ext_search` in the repository have identical
logic and are both covered by this embedding). -/

/-- First index at or after `i` whose extent has `ee_start == 0`, looking at
most `fuel` slots (the counting loop of `lolelffs_ext_search`, extent.c:19-22,
with `fuel = MAX_EXTENTS` and `i = 0`). -/
def firstZeroFrom (ext : Nat → Extent) : Nat → Nat → Nat
  | 0, i => i
  | fuel + 1, i => if (ext i).ee_start = 0 then i else firstZeroFrom ext fuel (i + 1)

/-- Number of used extents: the length of the leading prefix of slots with
nonzero `ee_start` (extent.c:19-22, part_005:10-20). -/
def countUsed (ext : Nat → Extent) : Nat := firstZeroFrom ext MAX_EXTENTS 0

/-- The binary-search loop of `lolelffs_ext_search` (extent.c:32-49).
`(block + len)` is a uint32 addition in C, hence the `% U32`.
Returns `some mid` when an extent containing `iblock` is found, `none`
when the loop exits with `left = right`. -/
def extSearchLoop (ext : Nat → Extent) (iblock : Nat) (left right : Nat) :
    Option Nat :=
  if h : left < right then
    let mid := left + (right - left) / 2
    let block := (ext mid).ee_block
    let len := (ext mid).ee_len
    if iblock < block then
      extSearchLoop ext iblock left mid
    else if (block + len) % U32 ≤ iblock then
      extSearchLoop ext iblock (mid + 1) right
    else
      some mid
  else
    none
termination_by right - left
decreasing_by
  · omega
  · omega

/-- Translation of `lolelffs_ext_search` (extent.c:12-57): the index of the
used extent containing `iblock`, else the first unused slot, else the
no-space marker `(uint32_t)-1`. -/
def lolelffs_ext_search (idx : FileEiBlock) (iblock : Nat) : Nat :=
  let n := countUsed idx.extents
  if n = 0 then 0
  else
    match extSearchLoop idx.extents iblock 0 n with
    | some m => m
    | none => if n < MAX_EXTENTS then n else UINT32_MAX

/-! ## Bitmap allocator (the bitmap.h header embedded in src/dir.c,
lines 440-656: get_first_free_bits, get_free_inode, get_free_blocks,
put_free_bits, put_inode, put_blocks, calc_optimal_extent_size) -/

/-- Maximum blocks per extent with compression (lolelffs.h:12). -/
def MAX_BLOCKS_PER_EXTENT : Nat := 2048

/-- uint32 addition. -/
def add32 (a b : Nat) : Nat := (a + b) % U32

/-- uint32 subtraction `a - b`. -/
def sub32 (a b : Nat) : Nat := (a + (U32 - b % U32)) % U32

/-- An in-memory free bitmap (1 = free, 0 = used) together with its bit
count (`sbi->nr_inodes` resp. `sbi->nr_blocks`) and the matching free
counter (`sbi->nr_free_inodes` resp. `sbi->nr_free_blocks`). Counter
arithmetic is uint32. -/
structure BitmapState where
  size : Nat
  map : Nat → Bool
  nrFree : Nat

/-- bitmap_set(freemap, i, len): set bits [i, i+len) to 1. -/
def bset (m : Nat → Bool) (i len : Nat) : Nat → Bool :=
  fun p => if i ≤ p ∧ p < i + len then true else m p

/-- bitmap_clear(freemap, i, len): set bits [i, i+len) to 0. -/
def bclear (m : Nat → Bool) (i len : Nat) : Nat → Bool :=
  fun p => if i ≤ p ∧ p < i + len then false else m p

/-- Scan of find_first_bit starting at `i` with `fuel` positions left:
lowest index with a set bit, or `i + fuel` when none is set. -/
def ffbGo (m : Nat → Bool) : Nat → Nat → Nat
  | 0, i => i
  | fuel + 1, i => if m i then i else ffbGo m fuel (i + 1)

/-- find_first_bit(freemap, size): lowest set bit index, or `size`. -/
def find_first_bit (m : Nat → Bool) (size : Nat) : Nat := ffbGo m size 0

/-- The rolling-counter run scan of get_first_free_bits (dir.c:472-481):
walk bit positions, counting consecutive set bits; when a run of `len`
completes at position `i`, its start `i + 1 - len` is returned. Gaps
(clear bits) reset the counter, exactly like the `prev != bit - 1` test
of the C loop over set bits. -/
def scanGo (m : Nat → Bool) (len : Nat) : Nat → Nat → Nat → Option Nat
  | 0, _, _ => none
  | fuel + 1, i, count =>
    if m i then
      if count + 1 = len then some (i + 1 - len)
      else scanGo m len fuel (i + 1) (count + 1)
    else scanGo m len fuel (i + 1) 0

/-- The run scan over the whole bitmap. -/
def scanRun (m : Nat → Bool) (size len : Nat) : Option Nat :=
  scanGo m len size 0 0

/-- get_first_free_bits (dir.c:456-483): fast path for `len = 1` via
find_first_bit + clear_bit, otherwise the rolling run scan + bitmap_clear.
Returns the claimed start index (with 0 doubling as the failure value, as
the C comment explains) and the updated bitmap. Note that a run found at
position 0 is cleared and yet reported as 0: the code relies on bit 0
never being free. -/
def get_first_free_bits (st : BitmapState) (len : Nat) : Nat × BitmapState :=
  if len = 1 then
    let bit := find_first_bit st.map st.size
    if bit < st.size then (bit, { st with map := bclear st.map bit 1 })
    else (0, st)
  else
    match scanRun st.map st.size len with
    | some s => (s, { st with map := bclear st.map s len })
    | none => (0, st)

/-- get_free_inode (dir.c:556-565): allocate one inode bit and decrement
the free-inode counter on success. -/
def get_free_inode (st : BitmapState) : Nat × BitmapState :=
  let r := get_first_free_bits st 1
  if r.1 ≠ 0 then (r.1, { r.2 with nrFree := sub32 r.2.nrFree 1 }) else r

/-- get_free_blocks (dir.c:571-581): allocate a run of `len` block bits and
decrement the free-block counter by `len` on success. -/
def get_free_blocks (st : BitmapState) (len : Nat) : Nat × BitmapState :=
  let r := get_first_free_bits st len
  if r.1 ≠ 0 then (r.1, { r.2 with nrFree := sub32 r.2.nrFree len }) else r

/-- put_free_bits (dir.c:585-597): reject when `i + len - 1 > size`
(uint32 arithmetic), else bitmap_set. `none` models the C return of -1. -/
def put_free_bits (m : Nat → Bool) (size i len : Nat) : Option (Nat → Bool) :=
  if (add32 i len + U32 - 1) % U32 > size then none
  else some (bset m i len)

/-- put_inode (dir.c:600-609): free one inode bit; when put_free_bits
rejects (its guard fires) nothing changes, else the bits are set and the
free-inode counter is incremented. The put_free_bits call is inlined:
its guard decides the branch and its bitmap_set lands in the success
branch. -/
def put_inode (st : BitmapState) (ino : Nat) : BitmapState :=
  if (add32 ino 1 + U32 - 1) % U32 > st.size then st
  else { st with map := bset st.map ino 1, nrFree := add32 st.nrFree 1 }

/-- put_blocks (dir.c:612-623): free `len` block bits; when put_free_bits
rejects (its guard fires) nothing changes, else the bits are set and the
free-block counter grows by `len`. The put_free_bits call is inlined
exactly as in `put_inode`. -/
def put_blocks (st : BitmapState) (bno len : Nat) : BitmapState :=
  if (add32 bno len + U32 - 1) % U32 > st.size then st
  else { st with map := bset st.map bno len, nrFree := add32 st.nrFree len }

/-- calc_optimal_extent_size (dir.c:633-654). -/
def calc_optimal_extent_size (nrFreeBlocks current_blocks : Nat) : Nat :=
  let a := if current_blocks < 8 then 2
           else if current_blocks < 32 then 4
           else MAX_BLOCKS_PER_EXTENT
  let a := if a > nrFreeBlocks then nrFreeBlocks else a
  if a = 0 then 1 else a

/-! ## The write_begin rollback loop (src/src/file.c:492-555) -/

/-- Zero one extent slot
(`memset(&index->extents[i], 0, sizeof(struct lolelffs_extent))`). -/
def clearSlot (ext : Nat → Extent) (i : Nat) : Nat → Extent :=
  fun j => if j = i then zeroExtent else ext j

/-- The reclamation loop of lolelffs_write_begin (file.c:543-549): starting
at slot `i` with `fuel = MAX_EXTENTS - i` slots left, stop at the first
slot with `ee_start == 0`; otherwise put_blocks the slot's run and zero
the slot. -/
def rollbackFrom : Nat → Nat → (Nat → Extent) → BitmapState →
    (Nat → Extent) × BitmapState
  | 0, _, ext, st => (ext, st)
  | fuel + 1, i, ext, st =>
    if (ext i).ee_start = 0 then (ext, st)
    else rollbackFrom fuel (i + 1) (clearSlot ext i)
      (put_blocks st (ext i).ee_start (ext i).ee_len)

/-- The whole rollback of lolelffs_write_begin on block_write_begin failure
(file.c:538-553), starting from the pre-call used-extent count `nrB`. -/
def write_begin_rollback (ext : Nat → Extent) (st : BitmapState)
    (nrB : Nat) : (Nat → Extent) × BitmapState :=
  rollbackFrom (MAX_EXTENTS - nrB) nrB ext st

/-- Fill consecutive extent slots starting at `i` with newly allocated runs,
as lolelffs_file_get_block does on each successful allocation
(file.c:69-74): slot `i` receives `ee_start = b`, `ee_len = l` and some
logical start `eb`; all other fields stay zero. -/
def fillSlots (ext : Nat → Extent) : Nat → List (Nat × Nat × Nat) →
    (Nat → Extent)
  | _, [] => ext
  | i, (b, l, eb) :: rest =>
    fillSlots
      (fun j => if j = i then
          { zeroExtent with ee_block := eb, ee_len := l, ee_start := b }
        else ext j)
      (i + 1) rest

/-- A run of successful allocations performed through get_free_blocks, as
block_write_begin triggers them via lolelffs_file_get_block: each step
allocates a run of some uint32 length from the current bitmap state and
records the returned (nonzero) start, the length, and the logical start
written into the slot. -/
inductive AllocSeq : BitmapState → List (Nat × Nat × Nat) → BitmapState → Prop
  | nil (st : BitmapState) : AllocSeq st [] st
  | cons (st : BitmapState) (len eb : Nat) (rest : List (Nat × Nat × Nat))
      (st'' : BitmapState) :
      (get_free_blocks st len).1 ≠ 0 →
      len < U32 →
      AllocSeq (get_free_blocks st len).2 rest st'' →
      AllocSeq st (((get_free_blocks st len).1, len, eb) :: rest) st''

/-- A sample extent index block used to witness `ext_search_spec`:
two used extents, `[0,2)` at physical 5 and `[2,5)` at physical 7. -/
def sampleIdx : FileEiBlock :=
  ⟨0, fun i =>
    if i = 0 then ⟨0, 2, 5, 0, 0, 0, 0⟩
    else if i = 1 then ⟨2, 3, 7, 0, 0, 0, 0⟩
    else zeroExtent⟩

/-- A sample bitmap state: 16 bits, bits 4..11 free, free counter 8. -/
def sampleBitmap : BitmapState :=
  ⟨16, fun p => decide (4 ≤ p ∧ p < 12), 8⟩

/-- A bitmap state exhibiting the put_free_bits boundary: 8 bits
(bits 4..7 free, counter 4). Bit index 8 is one past the end. -/
def boundaryBitmap : BitmapState :=
  ⟨8, fun p => decide (4 ≤ p ∧ p < 8), 4⟩

/-! ## mkfs (src/src/mkfs.c: write_superblock and write_inode_store) -/

/-- Filesystem version (lolelffs.h:18). -/
def LOLELFFS_VERSION : Nat := 1

/-- Feature flag LOLELFFS_FEATURE_LARGE_EXTENTS (lolelffs.h:21). -/
def FEATURE_LARGE_EXTENTS : Nat := 1

/-- Maximum blocks per large extent (lolelffs.h:13). -/
def MAX_BLOCKS_PER_EXTENT_LARGE : Nat := 524288

/-- KDF id LOLELFFS_KDF_ARGON2ID (lolelffs.h:36). -/
def KDF_ARGON2ID : Nat := 1

/-- Inode record (struct lolelffs_inode, lolelffs.h:134-147): eleven uint32
fields plus 28 bytes of inline data, 72 bytes on disk. -/
structure Inode where
  i_mode : Nat
  i_uid : Nat
  i_gid : Nat
  i_size : Nat
  i_ctime : Nat
  i_atime : Nat
  i_mtime : Nat
  i_blocks : Nat
  i_nlink : Nat
  ei_block : Nat
  xattr_block : Nat
  i_data : Nat → Nat

/-- The all-zero inode record. -/
def zeroInode : Inode := ⟨0, 0, 0, 0, 0, 0, 0, 0, 0, 0, 0, fun _ => 0⟩

/-- sizeof(struct lolelffs_inode) = 11 * 4 + 28 = 72 bytes. -/
def INODE_SIZE : Nat := 11 * 4 + 28

/-- LOLELFFS_INODES_PER_BLOCK (lolelffs.h:149-150) = 4096 / 72 = 56. -/
def INODES_PER_BLOCK : Nat := BLOCK_SIZE / INODE_SIZE

/-- idiv_ceil (mkfs.c:22-28): ceiling division. -/
def idiv_ceil (a b : Nat) : Nat := if a % b = 0 then a / b else a / b + 1

/-- Total block count computed by write_superblock (mkfs.c:36). -/
def nr_blocks_of (size : Nat) : Nat := size / BLOCK_SIZE

/-- Inode count: one per block, rounded up to a whole inode-store block
(mkfs.c:37-40). -/
def nr_inodes_of (size : Nat) : Nat :=
  let n := nr_blocks_of size
  if n % INODES_PER_BLOCK = 0 then n
  else n + (INODES_PER_BLOCK - n % INODES_PER_BLOCK)

/-- Inode-store region size (mkfs.c:41). -/
def nr_istore_blocks_of (size : Nat) : Nat :=
  idiv_ceil (nr_inodes_of size) INODES_PER_BLOCK

/-- Inode-bitmap region size (mkfs.c:42). -/
def nr_ifree_blocks_of (size : Nat) : Nat :=
  idiv_ceil (nr_inodes_of size) (BLOCK_SIZE * 8)

/-- Block-bitmap region size (mkfs.c:43). -/
def nr_bfree_blocks_of (size : Nat) : Nat :=
  idiv_ceil (nr_blocks_of size) (BLOCK_SIZE * 8)

/-- Data-block count (mkfs.c:44-45). -/
def nr_data_blocks_of (size : Nat) : Nat :=
  nr_blocks_of size - 1 - nr_istore_blocks_of size - nr_ifree_blocks_of size
    - nr_bfree_blocks_of size

/-- The numeric superblock fields written by write_superblock
(mkfs.c:48-76). -/
structure SbOnDisk where
  magic : Nat
  nr_blocks : Nat
  nr_inodes : Nat
  nr_istore_blocks : Nat
  nr_ifree_blocks : Nat
  nr_bfree_blocks : Nat
  nr_free_inodes : Nat
  nr_free_blocks : Nat
  version : Nat
  comp_default_algo : Nat
  comp_enabled : Nat
  comp_min_block_size : Nat
  comp_features : Nat
  max_extent_blocks : Nat
  max_extent_blocks_large : Nat
  enc_enabled : Nat
  enc_default_algo : Nat
  enc_kdf_algo : Nat
  enc_kdf_iterations : Nat
  enc_kdf_memory : Nat
  enc_kdf_parallelism : Nat
  enc_features : Nat
deriving DecidableEq

/-- write_superblock (mkfs.c:30-112) as a function of the image size in
bytes. -/
def write_superblock (size : Nat) : SbOnDisk :=
  { magic := LOLELFFS_MAGIC
    nr_blocks := nr_blocks_of size
    nr_inodes := nr_inodes_of size
    nr_istore_blocks := nr_istore_blocks_of size
    nr_ifree_blocks := nr_ifree_blocks_of size
    nr_bfree_blocks := nr_bfree_blocks_of size
    nr_free_inodes := nr_inodes_of size - 1
    nr_free_blocks := nr_data_blocks_of size - 1
    version := LOLELFFS_VERSION
    comp_default_algo := COMP_LZ4
    comp_enabled := 1
    comp_min_block_size := 128
    comp_features := FEATURE_LARGE_EXTENTS
    max_extent_blocks := MAX_BLOCKS_PER_EXTENT
    max_extent_blocks_large := MAX_BLOCKS_PER_EXTENT_LARGE
    enc_enabled := 0
    enc_default_algo := ENC_NONE
    enc_kdf_algo := KDF_ARGON2ID
    enc_kdf_iterations := 3
    enc_kdf_memory := 65536
    enc_kdf_parallelism := 4
    enc_features := 0 }

/-- The acceptance check of mkfs main (mkfs.c:403-409): images of at most
100 blocks are rejected. -/
def mkfs_accepts (size : Nat) : Prop := 100 * BLOCK_SIZE < size

/-- First data block as computed in write_inode_store (mkfs.c:125-127). -/
def first_data_block_of (size : Nat) : Nat :=
  1 + nr_bfree_blocks_of size + nr_ifree_blocks_of size
    + nr_istore_blocks_of size

/-- The mode written for the root inode (mkfs.c:128-129):
S_IFDIR | S_IRUSR | S_IRGRP | S_IROTH | S_IWUSR | S_IWGRP
| S_IXUSR | S_IXGRP | S_IXOTH. -/
def ROOT_MODE : Nat :=
  0o40000 + 0o400 + 0o40 + 0o4 + 0o200 + 0o20 + 0o100 + 0o10 + 0o1

/-- The root inode record written by write_inode_store (mkfs.c:124-137). -/
def mkfs_root_inode (size : Nat) : Inode :=
  { i_mode := ROOT_MODE
    i_uid := 0
    i_gid := 0
    i_size := BLOCK_SIZE
    i_ctime := 0
    i_atime := 0
    i_mtime := 0
    i_blocks := 1
    i_nlink := 2
    ei_block := first_data_block_of size
    xattr_block := 0
    i_data := fun _ => 0 }

/-- Inode record at (block, slot) of the store as written by
write_inode_store (mkfs.c:114-165): block 0 carries the root inode in
slot 0 and zeroes elsewhere; every later store block is zeroed. -/
def mkfs_istore_inode (size blk slot : Nat) : Inode :=
  if blk = 0 ∧ slot = 0 then mkfs_root_inode size else zeroInode

/-- Inode record for inode number `ino` right after mkfs. -/
def mkfs_inode_at (size ino : Nat) : Inode :=
  mkfs_istore_inode size (ino / INODES_PER_BLOCK) (ino % INODES_PER_BLOCK)

/-! ## Base-offset accounting (LOLELFFS_SB_BREAD, lolelffs.h:205-207, and
its call sites in src/src/file.c) -/

/-- LOLELFFS_SB_BREAD(sb, block) (lolelffs.h:206-207): the macro itself
adds `fs_offset` to the requested block before calling sb_bread. -/
def LOLELFFS_SB_BREAD_target (fs_offset blk : Nat) : Nat := blk + fs_offset

/-- Backing block read by lolelffs_read_folio for a data block
(file.c:155): the call passes `phys_block + sbi->fs_offset` into
LOLELFFS_SB_BREAD, which adds fs_offset once more. -/
def read_folio_data_target (fs_offset phys : Nat) : Nat :=
  LOLELFFS_SB_BREAD_target fs_offset (phys + fs_offset)

/-- Backing block written by lolelffs_writepage_locked for a data block
(file.c:366): LOLELFFS_SB_BREAD on the bare `phys_block`. -/
def writepage_data_target (fs_offset phys : Nat) : Nat :=
  LOLELFFS_SB_BREAD_target fs_offset phys

/-- Backing block mapped by lolelffs_file_get_block (file.c:82): map_bh on
`bno + fs_offset`; map_bh itself performs no offset adjustment. -/
def file_get_block_target (fs_offset bno : Nat) : Nat := bno + fs_offset

/-- Backing block read for metadata such as the extent index block
(file.c:128, 275, 522: LOLELFFS_SB_BREAD(sb, ci->ei_block)). -/
def metadata_target (fs_offset blk : Nat) : Nat :=
  LOLELFFS_SB_BREAD_target fs_offset blk

/-! ## Codec pipelines (src/src/file.c lolelffs_read_folio and
lolelffs_writepage_locked, src/src/compress.c, src/unnamed/part_004) -/

/-- A 4 KiB data block: byte position → byte value. -/
def Block : Type := Nat → Nat

/-- The all-zero block. -/
def zeroBlockB : Block := fun _ => 0

/-- Errno values; the C functions return them negated, modelled here as
`Except.error e`. -/
def EPERM : Int := 1
def EIO : Int := 5
def E2BIG : Int := 7
def EINVAL : Int := 22
def EOPNOTSUPP : Int := 95

/-- Modelled from the spec: the raw compression and encryption primitives
behind src/src/compress.c and src/unnamed/part_004 are kernel library
code (linux/lz4.h, linux/zlib.h, the kernel crypto API), which is not part
of this repository. Following the spec's codec contract (§4.3),
`compress algo src` yields the compressed bytes and their size or fails;
`decompress` inverts it on the stored zero-padded block; `encrypt` and
`decrypt` are per-block transformations keyed by the master key and the
logical block number, with decrypt inverting encrypt. The availability
flags model the `available` fields the C contexts set at init. -/
structure Codec where
  comp_avail : Nat → Bool
  enc_avail : Nat → Bool
  compress : Nat → Block → Option (Nat × Block)
  decompress : Nat → Block → Option Block
  encrypt : Nat → (Nat → Nat) → Nat → Block → Block
  decrypt : Nat → (Nat → Nat) → Nat → Block → Block

/-- lolelffs_comp_supported (compress.c:56-65). -/
def lolelffs_comp_supported (c : Codec) (algo : Nat) : Bool :=
  if algo > COMP_MAX_ALGO then false
  else if algo = COMP_NONE then true
  else c.comp_avail algo

/-- lolelffs_enc_supported (part_004:58-67). -/
def lolelffs_enc_supported (c : Codec) (algo : Nat) : Bool :=
  if algo > ENC_MAX_ALGO then false
  else if algo = ENC_NONE then true
  else c.enc_avail algo

/-- lolelffs_compress_block (compress.c:228-274): algorithm-range and
availability guards, dispatch, and the space-saving check
`*comp_size >= src_len → -E2BIG` with `src_len = LOLELFFS_BLOCK_SIZE` as
the write path passes it. -/
def lolelffs_compress_block (c : Codec) (algo : Nat) (src : Block) :
    Except Int (Nat × Block) :=
  if algo = COMP_NONE ∨ algo > COMP_MAX_ALGO then .error EINVAL
  else if c.comp_avail algo = false then .error EOPNOTSUPP
  else
    match c.compress algo src with
    | none => .error EIO
    | some (sz, buf) =>
      if sz ≥ BLOCK_SIZE then .error E2BIG else .ok (sz, buf)

/-- lolelffs_decompress_block (compress.c:279-318) with
`src_len = dst_len = LOLELFFS_BLOCK_SIZE` as the read path passes them. -/
def lolelffs_decompress_block (c : Codec) (algo : Nat) (src : Block) :
    Except Int Block :=
  if algo = COMP_NONE ∨ algo > COMP_MAX_ALGO then .error EINVAL
  else if c.comp_avail algo = false then .error EOPNOTSUPP
  else
    match c.decompress algo src with
    | none => .error EIO
    | some out => .ok out

/-- Zero-pad the compressed bytes to a whole block, as the write path does
(file.c:325-326: memcpy of comp_size bytes, memset of the rest). -/
def padBlock (buf : Block) (sz : Nat) : Block :=
  fun j => if j < sz then buf j else 0

/-- The compression step of lolelffs_writepage_locked (file.c:317-332):
when the default algorithm is enabled and supported, compress; adopt the
result only when it saves at least 5 % of the block
(`comp_size < LOLELFFS_BLOCK_SIZE * 95 / 100`), recording the used
algorithm and the COMPRESSED flag; otherwise keep the plaintext with
algorithm none and no flag. Returns (work buffer, used_comp_algo, flags). -/
def writepage_comp_step (c : Codec) (comp_algo : Nat) (data : Block) :
    Block × Nat × Nat :=
  if comp_algo ≠ COMP_NONE ∧ lolelffs_comp_supported c comp_algo = true then
    match lolelffs_compress_block c comp_algo data with
    | .ok (sz, cbuf) =>
      if sz < BLOCK_SIZE * 95 / 100 then
        (padBlock cbuf sz, comp_algo, EXT_COMPRESSED)
      else (data, COMP_NONE, 0)
    | .error _ => (data, COMP_NONE, 0)
  else (data, COMP_NONE, 0)

/-- The codec stage of lolelffs_writepage_locked (file.c:296-363) over
explicit settings: compress-then-encrypt, failing with -EPERM when
encryption applies and the filesystem is locked. Returns the stored block
and the used_comp_algo / used_enc_algo / ee_flags values that
file.c:377-387 write into the extent. -/
def writepage_codec (c : Codec) (comp_algo enc_algo : Nat) (unlocked : Bool)
    (key : Nat → Nat) (iblock : Nat) (data : Block) :
    Except Int (Block × Nat × Nat × Nat) :=
  let s1 := writepage_comp_step c comp_algo data
  if enc_algo ≠ ENC_NONE ∧ lolelffs_enc_supported c enc_algo = true then
    if unlocked = false then .error EPERM
    else .ok (c.encrypt enc_algo key iblock s1.1, s1.2.1, enc_algo,
              s1.2.2 + EXT_ENCRYPTED)
  else .ok (s1.1, s1.2.1, ENC_NONE, s1.2.2)

/-- In-memory superblock state consulted by the two pipelines (the
relevant fields of struct lolelffs_sb_info, lolelffs.h:152-196). -/
structure SbiState where
  comp_enabled : Bool
  comp_default_algo : Nat
  enc_enabled : Bool
  enc_default_algo : Nat
  enc_unlocked : Bool
  enc_master_key : Nat → Nat

/-- lolelffs_writepage_locked's codec stage with the settings drawn from
the superblock info exactly as file.c:296-297 does. -/
def writepage_pipeline (c : Codec) (sbi : SbiState) (iblock : Nat)
    (data : Block) : Except Int (Block × Nat × Nat × Nat) :=
  writepage_codec c
    (if sbi.comp_enabled then sbi.comp_default_algo else COMP_NONE)
    (if sbi.enc_enabled then sbi.enc_default_algo else ENC_NONE)
    sbi.enc_unlocked sbi.enc_master_key iblock data

/-- The codec stage of lolelffs_read_folio (file.c:163-218): decrypt when
the extent records a supported non-none encryption algorithm (failing with
-EPERM while locked), then decompress when the extent records a supported
non-none compression algorithm. -/
def read_folio_codec (c : Codec) (comp_algo enc_algo : Nat)
    (unlocked : Bool) (key : Nat → Nat) (iblock : Nat) (stored : Block) :
    Except Int Block :=
  if enc_algo ≠ ENC_NONE ∧ lolelffs_enc_supported c enc_algo = true then
    if unlocked = false then .error EPERM
    else
      if comp_algo ≠ COMP_NONE ∧ lolelffs_comp_supported c comp_algo = true then
        lolelffs_decompress_block c comp_algo
          (c.decrypt enc_algo key iblock stored)
      else .ok (c.decrypt enc_algo key iblock stored)
  else
    if comp_algo ≠ COMP_NONE ∧ lolelffs_comp_supported c comp_algo = true then
      lolelffs_decompress_block c comp_algo stored
    else .ok stored

/-- lolelffs_read_folio's codec stage with lock state and key from the
superblock info (file.c:169, 187). -/
def read_folio_pipeline (c : Codec) (sbi : SbiState)
    (comp_algo enc_algo iblock : Nat) (stored : Block) : Except Int Block :=
  read_folio_codec c comp_algo enc_algo sbi.enc_unlocked
    sbi.enc_master_key iblock stored

/-- Write one block through the writepage codec stage, then read it back
through the read_folio codec stage using the extent algorithm ids the
write recorded (file.c:377-387 store them, file.c:149-150 read them). -/
def write_then_read_block (c : Codec) (sbi : SbiState) (iblock : Nat)
    (data : Block) : Except Int Block :=
  match writepage_pipeline c sbi iblock data with
  | .error e => .error e
  | .ok (stored, usedComp, usedEnc, _fl) =>
    read_folio_pipeline c sbi usedComp usedEnc iblock stored

/-- The disk-level effect of lolelffs_writepage_locked on the data block:
on any codec-stage error the backing store is untouched (the -EPERM exit
at file.c:343-348 happens before the block write at file.c:366-375). -/
def lolelffs_writepage_store (c : Codec) (sbi : SbiState)
    (disk : Nat → Block) (phys iblock : Nat) (data : Block) :
    Except Int Unit × (Nat → Block) :=
  match writepage_pipeline c sbi iblock data with
  | .error e => (.error e, disk)
  | .ok (stored, _, _, _) =>
    (.ok (), fun b => if b = phys then stored else disk b)

/-- Logical block `i` of a file with plaintext byte content `content`. -/
def fileBlock (content : Nat → Nat) (i : Nat) : Block :=
  fun j => content (BLOCK_SIZE * i + j)

/-- Overwrite `bytes` into the plaintext content at byte offset `off`: the
merge a partial-block write performs via read-modify-write (spec §4.8,
write path step 2; the VFS assembles this in the page cache before
writepage runs). -/
def overwrite (content : Nat → Nat) (off : Nat) (bytes : List Nat) :
    Nat → Nat :=
  fun p =>
    if off ≤ p ∧ p < off + bytes.length then bytes.getD (p - off) 0
    else content p

/-- Write the block containing byte `p` of the merged content through the
writepage codec stage and read byte `p` back through the read stage. -/
def write_then_read_byte (c : Codec) (sbi : SbiState)
    (content : Nat → Nat) (p : Nat) : Except Int Nat :=
  match write_then_read_block c sbi (p / BLOCK_SIZE)
      (fileBlock content (p / BLOCK_SIZE)) with
  | .error e => .error e
  | .ok blk => .ok (blk (p % BLOCK_SIZE))

/-- Read back `n` consecutive bytes starting at byte `p` after writing. -/
def write_then_read_range (c : Codec) (sbi : SbiState)
    (content : Nat → Nat) : Nat → Nat → Except Int (List Nat)
  | _, 0 => .ok []
  | p, n + 1 =>
    match write_then_read_byte c sbi content p with
    | .error e => .error e
    | .ok b =>
      match write_then_read_range c sbi content (p + 1) n with
      | .error e => .error e
      | .ok rest => .ok (b :: rest)

/-- A toy codec with inverse xor encryption and no effective compression,
used to witness the pipeline theorems at concrete inputs. -/
def xorCodec : Codec :=
  { comp_avail := fun _ => true
    enc_avail := fun _ => true
    compress := fun _ _ => none
    decompress := fun _ _ => none
    encrypt := fun _ k n b => fun j => Nat.xor (b j) (Nat.xor n (k j))
    decrypt := fun _ k n b => fun j => Nat.xor (b j) (Nat.xor n (k j)) }

/-- Superblock state: AES-256-XTS encryption enabled and unlocked,
compression disabled. -/
def encSbi : SbiState :=
  { comp_enabled := false
    comp_default_algo := COMP_NONE
    enc_enabled := true
    enc_default_algo := ENC_AES256_XTS
    enc_unlocked := true
    enc_master_key := fun j => j + 1 }

/-- Superblock state: AES-256-XTS encryption enabled but locked. -/
def lockedSbi : SbiState :=
  { comp_enabled := false
    comp_default_algo := COMP_NONE
    enc_enabled := true
    enc_default_algo := ENC_AES256_XTS
    enc_unlocked := false
    enc_master_key := fun _ => 0 }

/-- Superblock state: LZ4 compression enabled, encryption disabled. -/
def compSbi : SbiState :=
  { comp_enabled := true
    comp_default_algo := COMP_LZ4
    enc_enabled := false
    enc_default_algo := ENC_NONE
    enc_unlocked := false
    enc_master_key := fun _ => 0 }

/-- A codec whose compressor always reports exactly 3891 bytes: the
boundary of the write path's integer threshold
`LOLELFFS_BLOCK_SIZE * 95 / 100 = 3891`. -/
def boundaryCodec : Codec :=
  { comp_avail := fun _ => true
    enc_avail := fun _ => true
    compress := fun _ _ => some (3891, zeroBlockB)
    decompress := fun _ _ => none
    encrypt := fun _ _ _ b => b
    decrypt := fun _ _ _ b => b }

/-- A codec whose compressor always reports 100 bytes (well under the
threshold). -/
def smallCompCodec : Codec :=
  { comp_avail := fun _ => true
    enc_avail := fun _ => true
    compress := fun _ _ => some (100, zeroBlockB)
    decompress := fun _ _ => none
    encrypt := fun _ _ _ b => b
    decrypt := fun _ _ _ b => b }

/-- The plaintext bytes at positions `[p, p + n)` of a content map. -/
def rangeBytes (content : Nat → Nat) : Nat → Nat → List Nat
  | _, 0 => []
  | p, n + 1 => content p :: rangeBytes content (p + 1) n

/-- A sample extent recording AES-256-XTS encryption, used in witnesses. -/
def sampleEncExtent : Extent := ⟨0, 1, 30, 0, ENC_AES256_XTS, 2, 0⟩

/-! ### Ordering facts derived from logical contiguity of the used prefix -/

section ExtSearchProofs

variable (E : Nat → Extent) (n : Nat)

/-- Logical contiguity propagates: the end of an earlier used extent is at
most the start of any later used extent. -/
theorem end_le_block_of_contig
    (hcontig : ∀ i, i < n → i + 1 < n →
      (E (i + 1)).ee_block = (E i).ee_block + (E i).ee_len)
    {i j : Nat} (hij : i < j) (hj : j < n) :
    (E i).ee_block + (E i).ee_len ≤ (E j).ee_block := by
  induction j with
  | zero => omega
  | succ j ih =>
    rcases Nat.lt_succ_iff_lt_or_eq.mp hij with h | h
    · have h1 : (E i).ee_block + (E i).ee_len ≤ (E j).ee_block :=
        ih h (by omega)
      have h2 : (E (j + 1)).ee_block = (E j).ee_block + (E j).ee_len :=
        hcontig j (by omega) hj
      omega
    · subst h
      have h2 : (E (i + 1)).ee_block = (E i).ee_block + (E i).ee_len :=
        hcontig i (by omega) hj
      omega

/-- Starts of used extents are monotone. -/
theorem block_mono_of_contig
    (hcontig : ∀ i, i < n → i + 1 < n →
      (E (i + 1)).ee_block = (E i).ee_block + (E i).ee_len)
    {i j : Nat} (hij : i ≤ j) (hj : j < n) :
    (E i).ee_block ≤ (E j).ee_block := by
  rcases Nat.lt_or_ge i j with h | h
  · have := end_le_block_of_contig E n hcontig h hj
    omega
  · have : i = j := by omega
    subst this; exact Nat.le_refl _

/-- Ends of used extents are monotone. -/
theorem end_mono_of_contig
    (hcontig : ∀ i, i < n → i + 1 < n →
      (E (i + 1)).ee_block = (E i).ee_block + (E i).ee_len)
    {i j : Nat} (hij : i ≤ j) (hj : j < n) :
    (E i).ee_block + (E i).ee_len ≤ (E j).ee_block + (E j).ee_len := by
  rcases Nat.lt_or_ge i j with h | h
  · have := end_le_block_of_contig E n hcontig h hj
    omega
  · have : i = j := by omega
    subst this; exact Nat.le_refl _

/-- If `iblock` lies inside used extent `e`, the binary-search loop finds
exactly slot `e` from any window containing it. -/
theorem extSearchLoop_finds
    (hcontig : ∀ i, i < n → i + 1 < n →
      (E (i + 1)).ee_block = (E i).ee_block + (E i).ee_len)
    (hnowrap : ∀ i, i < n → (E i).ee_block + (E i).ee_len < U32)
    {iblock e : Nat} (he : e < n)
    (hin1 : (E e).ee_block ≤ iblock)
    (hin2 : iblock < (E e).ee_block + (E e).ee_len) :
    ∀ d left right, right - left ≤ d → left ≤ e → e < right → right ≤ n →
      extSearchLoop E iblock left right = some e := by
  intro d
  induction d with
  | zero => intro left right hle h1 h2 h3; omega
  | succ d ih =>
    intro left right hle h1 h2 h3
    have hlr : left < right := Nat.lt_of_le_of_lt h1 h2
    rw [extSearchLoop]
    simp only [hlr, dif_pos]
    have hmidlt : left + (right - left) / 2 < right := by omega
    have hmidn : left + (right - left) / 2 < n := by omega
    by_cases hb1 : iblock < (E (left + (right - left) / 2)).ee_block
    · -- target is strictly left of mid
      simp only [hb1, if_pos]
      have hemid : e < left + (right - left) / 2 := by
        by_contra hcon
        have := block_mono_of_contig E n hcontig
          (i := left + (right - left) / 2) (j := e) (by omega) he
        omega
      exact ih left (left + (right - left) / 2) (by omega) h1 hemid (by omega)
    · simp only [hb1, if_neg, if_false]
      have hmod : ((E (left + (right - left) / 2)).ee_block +
          (E (left + (right - left) / 2)).ee_len) % U32 =
          (E (left + (right - left) / 2)).ee_block +
          (E (left + (right - left) / 2)).ee_len :=
        Nat.mod_eq_of_lt (hnowrap _ hmidn)
      by_cases hb2 : (E (left + (right - left) / 2)).ee_block +
          (E (left + (right - left) / 2)).ee_len ≤ iblock
      · -- target is strictly right of mid
        rw [hmod]
        simp only [hb2, if_pos]
        have hemid : left + (right - left) / 2 < e := by
          by_contra hcon
          rcases Nat.lt_or_ge e (left + (right - left) / 2) with h | h
          · have := end_le_block_of_contig E n hcontig h hmidn
            omega
          · have : e = left + (right - left) / 2 := by omega
            subst this; omega
        exact ih (left + (right - left) / 2 + 1) right (by omega)
          (by omega) h2 h3
      · rw [hmod]
        simp only [hb2, if_neg, if_false]
        -- found: mid must be e
        have : left + (right - left) / 2 = e := by
          rcases Nat.lt_trichotomy (left + (right - left) / 2) e with h | h | h
          · have := end_le_block_of_contig E n hcontig h he
            omega
          · exact h
          · have := end_le_block_of_contig E n hcontig h hmidn
            omega
        rw [this]

/-- If `iblock` is at or past the end of every used extent, the binary-search
loop finds nothing. -/
theorem extSearchLoop_beyond
    (hnowrap : ∀ i, i < n → (E i).ee_block + (E i).ee_len < U32)
    {iblock : Nat}
    (hbeyond : ∀ i, i < n → (E i).ee_block + (E i).ee_len ≤ iblock) :
    ∀ d left right, right - left ≤ d → right ≤ n →
      extSearchLoop E iblock left right = none := by
  intro d
  induction d with
  | zero =>
    intro left right hle h3
    rw [extSearchLoop]
    have : ¬ left < right := by omega
    simp only [this, dif_neg, not_false_iff]
  | succ d ih =>
    intro left right hle h3
    rw [extSearchLoop]
    by_cases hlr : left < right
    · simp only [hlr, dif_pos]
      have hmidn : left + (right - left) / 2 < n := by omega
      have hb1 : ¬ iblock < (E (left + (right - left) / 2)).ee_block := by
        have := hbeyond _ hmidn
        omega
      simp only [hb1, if_neg, if_false]
      have hmod : ((E (left + (right - left) / 2)).ee_block +
          (E (left + (right - left) / 2)).ee_len) % U32 =
          (E (left + (right - left) / 2)).ee_block +
          (E (left + (right - left) / 2)).ee_len :=
        Nat.mod_eq_of_lt (hnowrap _ hmidn)
      rw [hmod]
      have hb2 : (E (left + (right - left) / 2)).ee_block +
          (E (left + (right - left) / 2)).ee_len ≤ iblock := hbeyond _ hmidn
      simp only [hb2, if_pos]
      exact ih (left + (right - left) / 2 + 1) right (by omega) h3
    · simp only [hlr, dif_neg, not_false_iff]

end ExtSearchProofs

/-- C3: for an extent index block whose used extents (the leading prefix of
slots with nonzero `ee_start`) are ordered and logically contiguous, and
whose uint32 extent ends do not wrap: every logical block inside used extent
`e` is found at index `e`; every logical block at or past the logical end of
the last used extent yields the first unused slot when fewer than
`MAX_EXTENTS` slots are used, and the no-space marker `(uint32_t)-1` when
all `MAX_EXTENTS` slots are used. -/
theorem ext_search_spec (idx : FileEiBlock)
    (hcontig : ∀ i, i < countUsed idx.extents →
      i + 1 < countUsed idx.extents →
      (idx.extents (i + 1)).ee_block =
        (idx.extents i).ee_block + (idx.extents i).ee_len)
    (hnowrap : ∀ i, i < countUsed idx.extents →
      (idx.extents i).ee_block + (idx.extents i).ee_len < U32) :
    (∀ e, e < countUsed idx.extents → ∀ b,
      (idx.extents e).ee_block ≤ b →
      b < (idx.extents e).ee_block + (idx.extents e).ee_len →
      lolelffs_ext_search idx b = e) ∧
    (∀ b, (0 < countUsed idx.extents →
        (idx.extents (countUsed idx.extents - 1)).ee_block +
        (idx.extents (countUsed idx.extents - 1)).ee_len ≤ b) →
      lolelffs_ext_search idx b =
        if countUsed idx.extents < MAX_EXTENTS then countUsed idx.extents
        else UINT32_MAX) := by
  have hcontig' : ∀ i, i < countUsed idx.extents →
      i + 1 < countUsed idx.extents →
      (idx.extents (i + 1)).ee_block =
        (idx.extents i).ee_block + (idx.extents i).ee_len := hcontig
  constructor
  · intro e he b hb1 hb2
    unfold lolelffs_ext_search
    have hne : ¬ countUsed idx.extents = 0 := by omega
    simp only [hne, if_neg, if_false]
    rw [extSearchLoop_finds idx.extents (countUsed idx.extents) hcontig'
      hnowrap he hb1 hb2 (countUsed idx.extents) 0 (countUsed idx.extents)
      (by omega) (by omega) he (Nat.le_refl _)]
  · intro b hlast
    have hbeyond : ∀ i, i < countUsed idx.extents →
        (idx.extents i).ee_block + (idx.extents i).ee_len ≤ b := by
      intro i hi
      have h1 := end_mono_of_contig idx.extents (countUsed idx.extents)
        hcontig' (i := i) (j := countUsed idx.extents - 1) (by omega) (by omega)
      have h2 := hlast (by omega)
      omega
    unfold lolelffs_ext_search
    by_cases hz : countUsed idx.extents = 0
    · simp only [hz, if_pos]
      rw [if_pos (by norm_num [MAX_EXTENTS, BLOCK_SIZE])]
    · simp only [hz, if_neg, if_false]
      rw [extSearchLoop_beyond idx.extents (countUsed idx.extents) hnowrap
        hbeyond (countUsed idx.extents) 0 (countUsed idx.extents)
        (by omega) (Nat.le_refl _)]

/-- Witness for `ext_search_spec` at a concrete index block: block 3 lies in
extent 1, and block 9 is past the end of the last used extent, so search
returns the first unused slot, 2. -/
theorem ext_search_spec_witness :
    lolelffs_ext_search sampleIdx 3 = 1 ∧
    lolelffs_ext_search sampleIdx 9 = 2 := by
  constructor
  · exact (ext_search_spec sampleIdx (by decide) (by decide)).1 1 (by decide)
      3 (by decide) (by decide)
  · exact (ext_search_spec sampleIdx (by decide) (by decide)).2 9 (by decide)

/-! ### Bitmap allocator lemmas -/

/-- The find_first_bit scan never returns an index below its start. -/
theorem ffbGo_ge (m : Nat → Bool) : ∀ fuel i, i ≤ ffbGo m fuel i := by
  intro fuel
  induction fuel with
  | zero => intro i; simp [ffbGo]
  | succ fuel ih =>
    intro i
    by_cases hm : m i = true
    · simp [ffbGo, hm]
    · simp only [ffbGo, hm, if_neg, Bool.false_eq_true, not_false_iff,
        if_false]
      have := ih (i + 1)
      omega

/-- When the find_first_bit scan stops early, it stops on a set bit. -/
theorem ffbGo_sound (m : Nat → Bool) : ∀ fuel i,
    ffbGo m fuel i < i + fuel → m (ffbGo m fuel i) = true := by
  intro fuel
  induction fuel with
  | zero => intro i h; simp [ffbGo] at h
  | succ fuel ih =>
    intro i h
    by_cases hm : m i = true
    · simp [ffbGo, hm]
    · simp only [ffbGo, hm, if_neg, Bool.false_eq_true, not_false_iff,
        if_false] at h ⊢
      exact ih (i + 1) (by omega)

/-- Soundness of the rolling run scan: a reported start is the start of a
run of `len` set bits lying inside the scanned range. -/
theorem scanGo_sound (m : Nat → Bool) (len : Nat) : ∀ fuel i count s,
    count ≤ i →
    (∀ p, i - count ≤ p → p < i → m p = true) →
    scanGo m len fuel i count = some s →
    (∀ p, s ≤ p → p < s + len → m p = true) ∧ s + len ≤ i + fuel ∧
      1 ≤ len := by
  intro fuel
  induction fuel with
  | zero => intro i count s _ _ h; simp [scanGo] at h
  | succ fuel ih =>
    intro i count s hci hrun h
    by_cases hm : m i = true
    · by_cases hc : count + 1 = len
      · simp only [scanGo, hm, if_pos, hc, if_true, Option.some.injEq] at h
        subst h
        have hlen1 : 1 ≤ len := by omega
        have hsl : i + 1 - len + len = i + 1 := by omega
        refine ⟨?_, by omega, hlen1⟩
        intro p hp1 hp2
        rcases Nat.lt_or_ge p i with hpi | hpi
        · exact hrun p (by omega) hpi
        · have : p = i := by omega
          subst this; exact hm
      · simp only [scanGo, hm, if_pos, hc, if_neg, if_false] at h
        have := ih (i + 1) (count + 1) s (by omega)
          (by
            intro p hp1 hp2
            rcases Nat.lt_or_ge p i with hpi | hpi
            · exact hrun p (by omega) hpi
            · have : p = i := by omega
              subst this; exact hm) h
        exact ⟨this.1, by omega, this.2.2⟩
    · simp only [scanGo, hm, if_neg, Bool.false_eq_true, not_false_iff,
        if_false] at h
      have := ih (i + 1) 0 s (by omega) (by intro p hp1 hp2; omega) h
      exact ⟨this.1, by omega, this.2.2⟩

/-- get_first_free_bits leaves the bitmap size unchanged. -/
theorem gffb_size (st : BitmapState) (len : Nat) :
    (get_first_free_bits st len).2.size = st.size := by
  unfold get_first_free_bits
  by_cases hl : len = 1
  · simp only [hl, if_pos]
    by_cases hb : find_first_bit st.map st.size < st.size <;> simp [hb]
  · simp only [hl, if_neg, if_false]
    cases hs : scanRun st.map st.size len <;> simp [hs]

/-- get_first_free_bits leaves the free counter unchanged (the counter is
adjusted only by its callers). -/
theorem gffb_nrFree (st : BitmapState) (len : Nat) :
    (get_first_free_bits st len).2.nrFree = st.nrFree := by
  unfold get_first_free_bits
  by_cases hl : len = 1
  · simp only [hl, if_pos]
    by_cases hb : find_first_bit st.map st.size < st.size <;> simp [hb]
  · simp only [hl, if_neg, if_false]
    cases hs : scanRun st.map st.size len <;> simp [hs]

/-- On a nonzero return, get_first_free_bits found a run of `len` free bits
inside the bitmap and cleared exactly those bits. -/
theorem gffb_success (st : BitmapState) (len : Nat)
    (hr : (get_first_free_bits st len).1 ≠ 0) :
    (get_first_free_bits st len).1 + len ≤ st.size ∧
    (∀ p, (get_first_free_bits st len).1 ≤ p →
      p < (get_first_free_bits st len).1 + len → st.map p = true) ∧
    (get_first_free_bits st len).2.map =
      bclear st.map (get_first_free_bits st len).1 len := by
  by_cases hl : len = 1
  · subst hl
    by_cases hb : find_first_bit st.map st.size < st.size
    · have hred : get_first_free_bits st 1 =
          (find_first_bit st.map st.size,
           { st with map := bclear st.map (find_first_bit st.map st.size) 1 }) := by
        unfold get_first_free_bits
        simp [hb]
      rw [hred]
      refine ⟨by omega, ?_, rfl⟩
      intro p hp1 hp2
      have hpe : p = find_first_bit st.map st.size := by omega
      subst hpe
      exact ffbGo_sound st.map st.size 0 (by simpa [find_first_bit] using hb)
    · have hred : get_first_free_bits st 1 = (0, st) := by
        unfold get_first_free_bits
        simp [hb]
      rw [hred] at hr
      simp at hr
  · cases hs : scanRun st.map st.size len with
    | none =>
      have hred : get_first_free_bits st len = (0, st) := by
        unfold get_first_free_bits
        simp [hl, hs]
      rw [hred] at hr
      simp at hr
    | some s =>
      have hred : get_first_free_bits st len =
          (s, { st with map := bclear st.map s len }) := by
        unfold get_first_free_bits
        simp [hl, hs]
      have hsound := scanGo_sound st.map len st.size 0 0 s (by omega)
        (by intro p h1 h2; omega) hs
      rw [hred]
      exact ⟨by omega, hsound.1, rfl⟩

/-- On a zero return with bit 0 in use, get_first_free_bits changed
nothing. -/
theorem gffb_fail (st : BitmapState) (len : Nat) (h0 : st.map 0 = false)
    (hr : (get_first_free_bits st len).1 = 0) :
    (get_first_free_bits st len).2 = st := by
  by_cases hl : len = 1
  · subst hl
    by_cases hb : find_first_bit st.map st.size < st.size
    · have hred : get_first_free_bits st 1 =
          (find_first_bit st.map st.size,
           { st with map := bclear st.map (find_first_bit st.map st.size) 1 }) := by
        unfold get_first_free_bits
        simp [hb]
      rw [hred] at hr
      simp only at hr
      have := ffbGo_sound st.map st.size 0 (by simpa [find_first_bit] using hb)
      rw [show ffbGo st.map st.size 0 = find_first_bit st.map st.size from rfl,
        hr] at this
      rw [h0] at this
      simp at this
    · have hred : get_first_free_bits st 1 = (0, st) := by
        unfold get_first_free_bits
        simp [hb]
      rw [hred]
  · cases hs : scanRun st.map st.size len with
    | none =>
      have hred : get_first_free_bits st len = (0, st) := by
        unfold get_first_free_bits
        simp [hl, hs]
      rw [hred]
    | some s =>
      have hred : get_first_free_bits st len =
          (s, { st with map := bclear st.map s len }) := by
        unfold get_first_free_bits
        simp [hl, hs]
      rw [hred] at hr
      simp only at hr
      subst hr
      have hsound := scanGo_sound st.map len st.size 0 0 0 (by omega)
        (by intro p h1 h2; omega) hs
      have := hsound.1 0 (by omega) (by omega)
      rw [h0] at this
      simp at this

/-- uint32 counters subtract-then-add back to themselves. -/
theorem add32_sub32 (a b : Nat) (ha : a < U32) :
    add32 (sub32 a b) b = a := by
  unfold add32 sub32 U32 at *
  omega

/-- uint32 results of sub32 are reduced. -/
theorem sub32_lt (a b : Nat) : sub32 a b < U32 := by
  unfold sub32 U32
  omega

/-- uint32 addition into a counter commutes. -/
theorem add32_add32_comm (f a b : Nat) :
    add32 (add32 f a) b = add32 (add32 f b) a := by
  unfold add32 U32
  omega

/-- put_blocks never changes the bitmap size. -/
theorem put_blocks_size (st : BitmapState) (bno len : Nat) :
    (put_blocks st bno len).size = st.size := by
  unfold put_blocks
  by_cases hg : (add32 bno len + U32 - 1) % U32 > st.size <;> simp [hg]

/-- Freeing two runs commutes. -/
theorem put_blocks_comm (st : BitmapState) (b1 l1 b2 l2 : Nat) :
    put_blocks (put_blocks st b1 l1) b2 l2 =
    put_blocks (put_blocks st b2 l2) b1 l1 := by
  have hmapeq : bset (bset st.map b1 l1) b2 l2 =
      bset (bset st.map b2 l2) b1 l1 := by
    funext p
    by_cases h1 : b1 ≤ p ∧ p < b1 + l1 <;> by_cases h2 : b2 ≤ p ∧ p < b2 + l2 <;>
      simp [bset, h1, h2]
  by_cases hg1 : (add32 b1 l1 + U32 - 1) % U32 > st.size <;>
    by_cases hg2 : (add32 b2 l2 + U32 - 1) % U32 > st.size <;>
    simp only [put_blocks, hg1, hg2, if_pos, if_neg,
      not_lt, if_false, gt_iff_lt, not_false_iff, ite_true, ite_false,
      not_true, if_true]
  rw [hmapeq, add32_add32_comm]

/-- Freeing the run just taken by a successful get_free_blocks restores the
bitmap state exactly (bitmap contents, size and free counter). -/
theorem put_blocks_restores (st : BitmapState) (len : Nat)
    (hsize : st.size < U32) (hfree : st.nrFree < U32)
    (hr : (get_free_blocks st len).1 ≠ 0) :
    put_blocks (get_free_blocks st len).2 (get_free_blocks st len).1 len
      = st := by
  have hr' : (get_first_free_bits st len).1 ≠ 0 := by
    intro h
    apply hr
    unfold get_free_blocks
    simp [h]
  obtain ⟨hbound, hrun, hmap⟩ := gffb_success st len hr'
  have hfst : (get_free_blocks st len).1 = (get_first_free_bits st len).1 := by
    unfold get_free_blocks
    simp [hr']
  have hsnd : (get_free_blocks st len).2 =
      { (get_first_free_bits st len).2 with
        nrFree := sub32 (get_first_free_bits st len).2.nrFree len } := by
    unfold get_free_blocks
    simp [hr']
  rw [hfst, hsnd]
  have hs2 := gffb_size st len
  have hn2 := gffb_nrFree st len
  have hga : add32 (get_first_free_bits st len).1 len =
      (get_first_free_bits st len).1 + len := by
    unfold add32
    exact Nat.mod_eq_of_lt (by omega)
  have hguard : ¬ ((add32 (get_first_free_bits st len).1 len + U32 - 1) % U32 >
      (get_first_free_bits st len).2.size) := by
    rw [hga, hs2]
    have h1 : 1 ≤ (get_first_free_bits st len).1 + len := by omega
    have h2 : (get_first_free_bits st len).1 + len - 1 < U32 := by omega
    have : ((get_first_free_bits st len).1 + len + U32 - 1) % U32 =
        (get_first_free_bits st len).1 + len - 1 := by
      unfold U32 at *
      omega
    rw [this]
    omega
  unfold put_blocks
  simp only [hguard, if_neg, not_false_iff, if_false, gt_iff_lt, not_lt,
    ite_false, ite_true]
  have hmapres : bset
      (bclear st.map (get_first_free_bits st len).1 len)
      (get_first_free_bits st len).1 len = st.map := by
    funext p
    by_cases hp : (get_first_free_bits st len).1 ≤ p ∧
        p < (get_first_free_bits st len).1 + len
    · simp only [bset, bclear, hp, if_pos, ite_true]
      exact (hrun p hp.1 hp.2).symm
    · simp [bset, bclear, hp]
  rw [hmap, hs2, hn2, hmapres, add32_sub32 st.nrFree len hfree]

/-- State-passing through the rollback loop: a pending put_blocks commutes
out of rollbackFrom (the loop's control flow depends only on the extent
slots, and put operations commute). -/
theorem rollbackFrom_put_comm : ∀ fuel i ext st b l,
    rollbackFrom fuel i ext (put_blocks st b l) =
    ((rollbackFrom fuel i ext st).1,
     put_blocks (rollbackFrom fuel i ext st).2 b l) := by
  intro fuel
  induction fuel with
  | zero => intros; rfl
  | succ fuel ih =>
    intro i ext st b l
    by_cases hz : (ext i).ee_start = 0
    · simp [rollbackFrom, hz]
    · simp only [rollbackFrom, hz, if_neg, not_false_iff, if_false,
        ite_false]
      rw [put_blocks_comm, ih]

/-- Slots strictly below the fill start are untouched by fillSlots. -/
theorem fillSlots_lt : ∀ allocs (ext : Nat → Extent) i j, j < i →
    fillSlots ext i allocs j = ext j := by
  intro allocs
  induction allocs with
  | nil => intros; rfl
  | cons hd tl ih =>
    intro ext i j hj
    obtain ⟨b, l, eb⟩ := hd
    show fillSlots _ (i + 1) tl j = ext j
    rw [ih _ (i + 1) j (by omega)]
    simp only []
    rw [if_neg (by omega)]

/-- Zeroing a slot below the fill start commutes with fillSlots. -/
theorem clearSlot_fillSlots : ∀ allocs (ext : Nat → Extent) i k, i < k →
    clearSlot (fillSlots ext k allocs) i =
    fillSlots (clearSlot ext i) k allocs := by
  intro allocs
  induction allocs with
  | nil => intros; rfl
  | cons hd tl ih =>
    intro ext i k hik
    obtain ⟨b, l, eb⟩ := hd
    show clearSlot (fillSlots _ (k + 1) tl) i = fillSlots _ (k + 1) tl
    rw [ih _ i (k + 1) (by omega)]
    have hAB : clearSlot
        (fun j => if j = k then
            { zeroExtent with ee_block := eb, ee_len := l, ee_start := b }
          else ext j) i =
        (fun j => if j = k then
            { zeroExtent with ee_block := eb, ee_len := l, ee_start := b }
          else clearSlot ext i j) := by
      funext j
      by_cases hj : j = i
      · subst hj
        rw [show (if (j = k) then
            ({ zeroExtent with ee_block := eb, ee_len := l, ee_start := b } : Extent)
          else clearSlot ext j j) = clearSlot ext j j from if_neg (by omega)]
        simp [clearSlot]
      · simp [clearSlot, hj]
    rw [hAB]

/-- C8: if block preparation inside lolelffs_write_begin fails after a run
of successful extent allocations appended at the pre-call used-extent
count `nrB`, the reclamation loop frees every newly filled slot back to the
block bitmap and zeroes it, restoring the extent index, the bitmap and the
free-block counter to exactly their pre-call values. -/
theorem write_begin_rollback_restores : ∀ (allocs : List (Nat × Nat × Nat))
    (st0 st2 : BitmapState) (ext0 : Nat → Extent) (nrB : Nat),
    st0.size < U32 → st0.nrFree < U32 →
    nrB + allocs.length ≤ MAX_EXTENTS →
    (∀ i, nrB ≤ i → ext0 i = zeroExtent) →
    AllocSeq st0 allocs st2 →
    write_begin_rollback (fillSlots ext0 nrB allocs) st2 nrB = (ext0, st0) := by
  have hM : MAX_EXTENTS = 170 := by norm_num [MAX_EXTENTS, BLOCK_SIZE]
  intro allocs
  induction allocs with
  | nil =>
    intro st0 st2 ext0 nrB hs hf hc hz hseq
    cases hseq
    show write_begin_rollback ext0 st0 nrB = (ext0, st0)
    unfold write_begin_rollback
    rcases hfe : MAX_EXTENTS - nrB with _ | f
    · rfl
    · have hz0 : (ext0 nrB).ee_start = 0 := by
        rw [hz nrB (Nat.le_refl _)]
        rfl
      simp [rollbackFrom, hz0, zeroExtent]
  | cons hd tl ih =>
    intro st0 st2 ext0 nrB hs hf hc hz hseq
    cases hseq with
    | cons _ len eb _ _ hne hlen hrest =>
      have hsize1 : (get_free_blocks st0 len).2.size = st0.size := by
        unfold get_free_blocks
        by_cases h : (get_first_free_bits st0 len).1 ≠ 0
        · rw [if_pos h]
          exact gffb_size st0 len
        · rw [if_neg h]
          exact gffb_size st0 len
      have hfree1 : (get_free_blocks st0 len).2.nrFree < U32 := by
        unfold get_free_blocks
        by_cases h : (get_first_free_bits st0 len).1 ≠ 0
        · rw [if_pos h]
          exact sub32_lt _ _
        · rw [if_neg h]
          rw [gffb_nrFree]
          exact hf
      have hcnt : nrB < MAX_EXTENTS := by
        simp only [List.length_cons] at hc
        omega
      have hfe : MAX_EXTENTS - nrB = (MAX_EXTENTS - (nrB + 1)) + 1 := by
        omega
      show write_begin_rollback
        (fillSlots _ (nrB + 1) tl) st2 nrB = (ext0, st0)
      unfold write_begin_rollback
      rw [hfe]
      have hslot : (fillSlots
          (fun j => if j = nrB then
              { zeroExtent with
                  ee_block := eb, ee_len := len,
                  ee_start := (get_free_blocks st0 len).1 }
            else ext0 j) (nrB + 1) tl) nrB =
          { zeroExtent with
              ee_block := eb, ee_len := len,
              ee_start := (get_free_blocks st0 len).1 } := by
        rw [fillSlots_lt tl _ (nrB + 1) nrB (by omega)]
        simp
      rw [rollbackFrom]
      rw [hslot]
      simp only [hne, if_neg, not_false_iff, if_false, ite_false]
      have hclear : clearSlot (fillSlots
          (fun j => if j = nrB then
              { zeroExtent with
                  ee_block := eb, ee_len := len,
                  ee_start := (get_free_blocks st0 len).1 }
            else ext0 j) (nrB + 1) tl) nrB =
          fillSlots ext0 (nrB + 1) tl := by
        rw [clearSlot_fillSlots tl _ nrB (nrB + 1) (by omega)]
        have hAE : clearSlot
            (fun j => if j = nrB then
                { zeroExtent with
                    ee_block := eb, ee_len := len,
                    ee_start := (get_free_blocks st0 len).1 }
              else ext0 j) nrB = ext0 := by
          funext j
          by_cases hj : j = nrB
          · subst hj
            simp only [clearSlot, if_pos]
            exact (hz j (Nat.le_refl _)).symm
          · simp [clearSlot, hj]
        rw [hAE]
      rw [hclear]
      rw [rollbackFrom_put_comm]
      have hihres := ih (get_free_blocks st0 len).2 st2 ext0 (nrB + 1)
        (by rw [hsize1]; exact hs) hfree1
        (by simp only [List.length_cons] at hc; omega)
        (by intro i hi; exact hz i (by omega)) hrest
      unfold write_begin_rollback at hihres
      rw [hihres]
      rw [put_blocks_restores st0 len hs hf hne]

/-- Witness for `write_begin_rollback_restores`: one pre-existing extent at
slot 0, one allocation of a 2-block run appended at slot 1, then rollback
restores the original index block and bitmap state. -/
theorem write_begin_rollback_restores_witness :
    write_begin_rollback
      (fillSlots
        (fun i => if i = 0 then ⟨0, 1, 20, 0, 0, 0, 0⟩ else zeroExtent)
        1 [((get_free_blocks sampleBitmap 2).1, 2, 1)])
      (get_free_blocks sampleBitmap 2).2 1 =
    ((fun i => if i = 0 then ⟨0, 1, 20, 0, 0, 0, 0⟩ else zeroExtent),
     sampleBitmap) := by
  exact write_begin_rollback_restores
    [((get_free_blocks sampleBitmap 2).1, 2, 1)]
    sampleBitmap (get_free_blocks sampleBitmap 2).2
    (fun i => if i = 0 then ⟨0, 1, 20, 0, 0, 0, 0⟩ else zeroExtent) 1
    (by decide) (by decide) (by decide)
    (by
      intro i hi
      simp only []
      rw [if_neg (by omega)])
    (AllocSeq.cons sampleBitmap 2 1 [] (get_free_blocks sampleBitmap 2).2
      (by decide) (by decide) (AllocSeq.nil _))

/-- C10: with bit 0 in use (true on every formatted image: the superblock
occupies block 0 and the root occupies inode 0), a 0 return from the
allocators leaves the whole state unchanged, and a nonzero return comes
with the counter decrement and exactly the returned run cleared; block 0
and inode 0 are therefore never handed out. -/
theorem alloc_zero_signals_failure (st : BitmapState)
    (h0 : st.map 0 = false) (len : Nat) :
    ((get_free_blocks st len).1 = 0 → (get_free_blocks st len).2 = st) ∧
    ((get_free_blocks st len).1 ≠ 0 →
      (get_free_blocks st len).2.nrFree = sub32 st.nrFree len ∧
      ∀ p, (get_free_blocks st len).1 ≤ p →
        p < (get_free_blocks st len).1 + len →
        st.map p = true ∧ (get_free_blocks st len).2.map p = false) ∧
    ((get_free_inode st).1 = 0 → (get_free_inode st).2 = st) ∧
    ((get_free_inode st).1 ≠ 0 →
      (get_free_inode st).2.nrFree = sub32 st.nrFree 1) := by
  refine ⟨?_, ?_, ?_, ?_⟩
  · intro hz
    have hz' : (get_first_free_bits st len).1 = 0 := by
      by_contra hcon
      unfold get_free_blocks at hz
      rw [if_pos hcon] at hz
      exact hcon hz
    unfold get_free_blocks
    simp [hz', gffb_fail st len h0 hz']
  · intro hnz
    have hnz' : (get_first_free_bits st len).1 ≠ 0 := by
      intro h
      apply hnz
      unfold get_free_blocks
      simp [h]
    obtain ⟨hbound, hrun, hmap⟩ := gffb_success st len hnz'
    have hfst : (get_free_blocks st len).1 =
        (get_first_free_bits st len).1 := by
      unfold get_free_blocks
      simp [hnz']
    have hsnd : (get_free_blocks st len).2 =
        { (get_first_free_bits st len).2 with
          nrFree := sub32 (get_first_free_bits st len).2.nrFree len } := by
      unfold get_free_blocks
      simp [hnz']
    constructor
    · rw [hsnd]
      simp [gffb_nrFree]
    · intro p hp1 hp2
      rw [hfst] at hp1 hp2
      refine ⟨hrun p hp1 hp2, ?_⟩
      rw [hsnd]
      simp only [hmap]
      simp [bclear, hp1, hp2]
  · intro hz
    have hz' : (get_first_free_bits st 1).1 = 0 := by
      by_contra hcon
      unfold get_free_inode at hz
      rw [if_pos hcon] at hz
      exact hcon hz
    unfold get_free_inode
    simp [hz', gffb_fail st 1 h0 hz']
  · intro hnz
    have hnz' : (get_first_free_bits st 1).1 ≠ 0 := by
      intro h
      apply hnz
      unfold get_free_inode
      simp [h]
    unfold get_free_inode
    simp [hnz', gffb_nrFree]

/-- Witness for `alloc_zero_signals_failure` on a concrete bitmap: a
2-block allocation succeeds at index 4 with the counter decremented, and
an oversized request returns 0 leaving the state untouched. -/
theorem alloc_zero_signals_failure_witness :
    ((get_free_blocks sampleBitmap 20).1 = 0 →
      (get_free_blocks sampleBitmap 20).2 = sampleBitmap) ∧
    (get_free_blocks sampleBitmap 2).2.nrFree = sub32 sampleBitmap.nrFree 2 := by
  constructor
  · exact (alloc_zero_signals_failure sampleBitmap (by decide) 20).1
  · exact ((alloc_zero_signals_failure sampleBitmap (by decide) 2).2.1
      (by decide)).1

/-- C9 is refuted at the bitmap boundary: `put_free_bits` guards with
`i + len - 1 > size`, so the range `[size, size + 1)` — which does not lie
inside the bitmap — passes the guard: `put_blocks` / `put_inode` on
`boundaryBitmap` (8 bits) at bit index 8 set the out-of-range bit 8 and
increment the free counter instead of being no-ops. -/
theorem put_free_bits_boundary_bug :
    (put_blocks boundaryBitmap 8 1).nrFree = 5 ∧
    boundaryBitmap.nrFree = 4 ∧
    (put_blocks boundaryBitmap 8 1).map 8 = true ∧
    boundaryBitmap.map 8 = false ∧
    (put_inode boundaryBitmap 8).nrFree = 5 ∧
    ¬ (8 + 1 ≤ boundaryBitmap.size) := by
  refine ⟨?_, rfl, ?_, rfl, ?_, by decide⟩ <;> decide

/-! ### mkfs and base-offset theorems -/

/-- C6: formatting a 200 MiB (209715200-byte) raw image yields magic
0x101E1FF5, 51200 total blocks, a 915-block inode store (with the 72-byte
inode record, 56 per block), 2 inode-bitmap blocks, 2 block-bitmap blocks,
and a stored free-inode count of the total inode count minus one. -/
theorem format_200mib_superblock :
    (write_superblock 209715200).magic = 0x101E1FF5 ∧
    (write_superblock 209715200).nr_blocks = 51200 ∧
    (write_superblock 209715200).nr_istore_blocks = 915 ∧
    (write_superblock 209715200).nr_ifree_blocks = 2 ∧
    (write_superblock 209715200).nr_bfree_blocks = 2 ∧
    (write_superblock 209715200).nr_free_inodes =
      (write_superblock 209715200).nr_inodes - 1 ∧
    INODE_SIZE = 72 := by
  refine ⟨rfl, ?_, ?_, ?_, ?_, ?_, rfl⟩ <;> decide

/-- C7's mode claim is refuted at a concrete accepted size: the root inode
written by mkfs has mode S_IFDIR | 0775 (the flag list in mkfs.c:128-129
includes S_IWGRP), not S_IFDIR | 0755 as the claim states. -/
theorem mkfs_root_mode_not_0755 :
    (mkfs_root_inode 209715200).i_mode = 0o40775 ∧
    (mkfs_root_inode 209715200).i_mode ≠ 0o40755 := by
  constructor
  · decide
  · decide

/-- C7 amended: for every image size mkfs accepts, the root inode written
at format time is a directory with mode 0775 (rather than the claimed
0755), link count 2, block count 1, size one block, extent-index pointer
at the first data block and no xattr block, and every other inode record
in the store is zeroed. -/
theorem mkfs_inode_store_spec (size : Nat) (_hacc : mkfs_accepts size) :
    mkfs_inode_at size 0 = mkfs_root_inode size ∧
    (mkfs_root_inode size).i_mode = 0o40000 + 0o775 ∧
    (mkfs_root_inode size).i_nlink = 2 ∧
    (mkfs_root_inode size).i_blocks = 1 ∧
    (mkfs_root_inode size).i_size = BLOCK_SIZE ∧
    (mkfs_root_inode size).ei_block = first_data_block_of size ∧
    (mkfs_root_inode size).xattr_block = 0 ∧
    ∀ ino, ino ≠ 0 → mkfs_inode_at size ino = zeroInode := by
  refine ⟨?_, by show ROOT_MODE = 0o40000 + 0o775; decide,
    rfl, rfl, rfl, rfl, rfl, ?_⟩
  · unfold mkfs_inode_at mkfs_istore_inode
    norm_num
  · intro ino hino
    unfold mkfs_inode_at mkfs_istore_inode
    have h56 : INODES_PER_BLOCK = 56 := by
      norm_num [INODES_PER_BLOCK, BLOCK_SIZE, INODE_SIZE]
    have hne : ¬ (ino / INODES_PER_BLOCK = 0 ∧ ino % INODES_PER_BLOCK = 0) := by
      rintro ⟨h1, h2⟩
      rw [h56] at h1 h2
      apply hino
      omega
    rw [if_neg hne]

/-- Witness for `mkfs_inode_store_spec` at the 200 MiB size: inode 1 is
zeroed and the root link count is 2. -/
theorem mkfs_inode_store_spec_witness :
    mkfs_inode_at 209715200 1 = zeroInode ∧
    (mkfs_root_inode 209715200).i_nlink = 2 := by
  have h := mkfs_inode_store_spec 209715200
    (by norm_num [mkfs_accepts, BLOCK_SIZE])
  exact ⟨h.2.2.2.2.2.2.2 1 (by decide), h.2.2.1⟩

/-- C4 is refuted on the compressed/encrypted read path: with a nonzero
base offset (embedded image, here fs_offset = 5 blocks) and a data block
of internal index 100, the writepage path, the get_block mapping and the
metadata reads all access backing block 105 (the offset added exactly
once), but lolelffs_read_folio accesses backing block 110: file.c:155
adds fs_offset explicitly on top of LOLELFFS_SB_BREAD, which already adds
it, so the read path reads a different backing block than the one the
write path wrote. -/
theorem read_folio_offset_added_twice :
    read_folio_data_target 5 100 = 110 ∧
    writepage_data_target 5 100 = 105 ∧
    file_get_block_target 5 100 = 105 ∧
    metadata_target 5 100 = 105 ∧
    read_folio_data_target 5 100 ≠ writepage_data_target 5 100 := by
  refine ⟨rfl, rfl, rfl, rfl, by decide⟩

/-! ### Codec pipeline lemmas -/

/-- A supported non-none compression algorithm passes the range guard of
compress/decompress_block and is available. -/
theorem comp_supported_elim (c : Codec) (a : Nat)
    (hs : lolelffs_comp_supported c a = true) (hne : a ≠ COMP_NONE) :
    ¬ (a = COMP_NONE ∨ a > COMP_MAX_ALGO) ∧ c.comp_avail a = true := by
  unfold lolelffs_comp_supported at hs
  by_cases h1 : a > COMP_MAX_ALGO
  · rw [if_pos h1] at hs
    exact absurd hs (by simp)
  · rw [if_neg h1, if_neg hne] at hs
    refine ⟨?_, hs⟩
    rintro (h | h)
    · exact hne h
    · exact h1 h

/-- Inversion of a successful lolelffs_compress_block: the raw compressor
succeeded and the size passed the dont-grow check. -/
theorem compress_block_ok_inv (c : Codec) (a : Nat) (src : Block)
    (sz : Nat) (cb : Block)
    (h : lolelffs_compress_block c a src = .ok (sz, cb)) :
    c.compress a src = some (sz, cb) ∧ sz < BLOCK_SIZE := by
  unfold lolelffs_compress_block at h
  by_cases h1 : a = COMP_NONE ∨ a > COMP_MAX_ALGO
  · rw [if_pos h1] at h
    exact absurd h (by simp)
  · rw [if_neg h1] at h
    by_cases h2 : c.comp_avail a = false
    · rw [if_pos h2] at h
      exact absurd h (by simp)
    · rw [if_neg h2] at h
      rcases hcc : c.compress a src with _ | ⟨sz', cb'⟩
      · rw [hcc] at h
        exact absurd h (by simp)
      · rw [hcc] at h
        by_cases h3 : sz' ≥ BLOCK_SIZE
        · simp only [h3, if_pos, ite_true] at h
          exact absurd h (by simp)
        · simp only [h3, if_neg, ite_false] at h
          injection h with h4
          injection h4 with h5 h6
          subst h5
          subst h6
          exact ⟨rfl, by omega⟩

/-- A successful raw decompression yields a successful
lolelffs_decompress_block. -/
theorem decompress_block_ok (c : Codec) (a : Nat)
    (hguards : ¬ (a = COMP_NONE ∨ a > COMP_MAX_ALGO))
    (hav : c.comp_avail a = true) (src : Block) (out : Block)
    (hd : c.decompress a src = some out) :
    lolelffs_decompress_block c a src = .ok out := by
  unfold lolelffs_decompress_block
  rw [if_neg hguards, if_neg (by simp [hav]), hd]

/-- Unfolding equation for the compression step when compress_block
succeeds. -/
theorem comp_step_eq_ok (c : Codec) (ca : Nat) (data : Block)
    (sz : Nat) (cb : Block)
    (h1 : ca ≠ COMP_NONE ∧ lolelffs_comp_supported c ca = true)
    (h : lolelffs_compress_block c ca data = .ok (sz, cb)) :
    writepage_comp_step c ca data =
      if sz < BLOCK_SIZE * 95 / 100 then (padBlock cb sz, ca, EXT_COMPRESSED)
      else (data, COMP_NONE, 0) := by
  unfold writepage_comp_step
  rw [if_pos h1, h]

/-- Unfolding equation for the compression step when compress_block
fails. -/
theorem comp_step_eq_err (c : Codec) (ca : Nat) (data : Block) (er : Int)
    (h : lolelffs_compress_block c ca data = .error er) :
    writepage_comp_step c ca data = (data, COMP_NONE, 0) := by
  unfold writepage_comp_step
  by_cases h1 : ca ≠ COMP_NONE ∧ lolelffs_comp_supported c ca = true
  · rw [if_pos h1, h]
  · rw [if_neg h1]

/-- Unfolding equation for the compression step when compression is off or
unsupported. -/
theorem comp_step_eq_off (c : Codec) (ca : Nat) (data : Block)
    (h1 : ¬ (ca ≠ COMP_NONE ∧ lolelffs_comp_supported c ca = true)) :
    writepage_comp_step c ca data = (data, COMP_NONE, 0) := by
  unfold writepage_comp_step
  rw [if_neg h1]

/-- The compression step either keeps the plaintext (algorithm none, no
flag), or records the configured algorithm and stores a zero-padded
compressed image whose decompression (given the codec round-trip contract)
returns the plaintext. -/
theorem comp_step_spec (c : Codec) (ca : Nat) (data : Block)
    (hcomp : ∀ a b sz cb, c.compress a b = some (sz, cb) → sz < BLOCK_SIZE →
      c.decompress a (padBlock cb sz) = some b) :
    ((writepage_comp_step c ca data).2.1 = COMP_NONE →
      (writepage_comp_step c ca data).1 = data ∧
      (writepage_comp_step c ca data).2.2 = 0) ∧
    ((writepage_comp_step c ca data).2.1 ≠ COMP_NONE →
      (writepage_comp_step c ca data).2.1 = ca ∧
      lolelffs_comp_supported c ca = true ∧
      lolelffs_decompress_block c ca (writepage_comp_step c ca data).1 =
        .ok data) := by
  by_cases h1 : ca ≠ COMP_NONE ∧ lolelffs_comp_supported c ca = true
  · rcases hcb : lolelffs_compress_block c ca data with er | ⟨sz, cb⟩
    · rw [comp_step_eq_err c ca data er hcb]
      exact ⟨fun _ => ⟨rfl, rfl⟩, fun hne => absurd rfl hne⟩
    · rw [comp_step_eq_ok c ca data sz cb h1 hcb]
      by_cases hsz : sz < BLOCK_SIZE * 95 / 100
      · rw [if_pos hsz]
        refine ⟨fun h => absurd h h1.1, fun _ => ⟨rfl, h1.2, ?_⟩⟩
        obtain ⟨hc1, hc2⟩ := compress_block_ok_inv c ca data sz cb hcb
        obtain ⟨hguards, hav⟩ := comp_supported_elim c ca h1.2 h1.1
        exact decompress_block_ok c ca hguards hav _ data
          (hcomp ca data sz cb hc1 hc2)
      · rw [if_neg hsz]
        exact ⟨fun _ => ⟨rfl, rfl⟩, fun hne => absurd rfl hne⟩
  · rw [comp_step_eq_off c ca data h1]
    exact ⟨fun _ => ⟨rfl, rfl⟩, fun hne => absurd rfl hne⟩

/-- The read side of the compression step: decompressing exactly when the
recorded algorithm is non-none recovers the plaintext. -/
theorem comp_step_read_ok (c : Codec) (ca : Nat) (data : Block)
    (hcomp : ∀ a b sz cb, c.compress a b = some (sz, cb) → sz < BLOCK_SIZE →
      c.decompress a (padBlock cb sz) = some b) :
    (if (writepage_comp_step c ca data).2.1 ≠ COMP_NONE ∧
        lolelffs_comp_supported c (writepage_comp_step c ca data).2.1 = true
     then lolelffs_decompress_block c (writepage_comp_step c ca data).2.1
            (writepage_comp_step c ca data).1
     else .ok (writepage_comp_step c ca data).1) = .ok data := by
  obtain ⟨hstep0, hstep1⟩ := comp_step_spec c ca data hcomp
  by_cases hz : (writepage_comp_step c ca data).2.1 = COMP_NONE
  · rw [if_neg (by rintro ⟨h, _⟩; exact h hz), (hstep0 hz).1]
  · obtain ⟨huc, hsup, hde⟩ := hstep1 hz
    rw [if_pos ⟨hz, by rw [huc]; exact hsup⟩, huc]
    exact hde

/-- Unfolding equation for the writepage codec stage with encryption
applying and the filesystem unlocked. -/
theorem writepage_codec_eq_enc (c : Codec) (ca ea : Nat) (unlocked : Bool)
    (key : Nat → Nat) (iblock : Nat) (data : Block)
    (he : ea ≠ ENC_NONE ∧ lolelffs_enc_supported c ea = true)
    (hu : unlocked = true) :
    writepage_codec c ca ea unlocked key iblock data =
      .ok (c.encrypt ea key iblock (writepage_comp_step c ca data).1,
           (writepage_comp_step c ca data).2.1, ea,
           (writepage_comp_step c ca data).2.2 + EXT_ENCRYPTED) := by
  simp only [writepage_codec]
  rw [if_pos he, hu, if_neg (by simp)]

/-- Unfolding equation for the writepage codec stage with encryption
applying and the filesystem locked: the -EPERM exit of file.c:343-348. -/
theorem writepage_codec_eq_locked (c : Codec) (ca ea : Nat)
    (unlocked : Bool) (key : Nat → Nat) (iblock : Nat) (data : Block)
    (he : ea ≠ ENC_NONE ∧ lolelffs_enc_supported c ea = true)
    (hu : unlocked = false) :
    writepage_codec c ca ea unlocked key iblock data = .error EPERM := by
  simp only [writepage_codec]
  rw [if_pos he, hu, if_pos rfl]

/-- Unfolding equation for the writepage codec stage with encryption not
applying. -/
theorem writepage_codec_eq_noenc (c : Codec) (ca ea : Nat)
    (unlocked : Bool) (key : Nat → Nat) (iblock : Nat) (data : Block)
    (he : ¬ (ea ≠ ENC_NONE ∧ lolelffs_enc_supported c ea = true)) :
    writepage_codec c ca ea unlocked key iblock data =
      .ok ((writepage_comp_step c ca data).1,
           (writepage_comp_step c ca data).2.1, ENC_NONE,
           (writepage_comp_step c ca data).2.2) := by
  simp only [writepage_codec]
  rw [if_neg he]

/-- Unfolding equation for the read_folio codec stage with encryption
applying and the filesystem unlocked. -/
theorem read_codec_eq_enc (c : Codec) (comp_a ea : Nat) (unlocked : Bool)
    (key : Nat → Nat) (iblock : Nat) (stored : Block)
    (he : ea ≠ ENC_NONE ∧ lolelffs_enc_supported c ea = true)
    (hu : unlocked = true) :
    read_folio_codec c comp_a ea unlocked key iblock stored =
      (if comp_a ≠ COMP_NONE ∧ lolelffs_comp_supported c comp_a = true
       then lolelffs_decompress_block c comp_a
              (c.decrypt ea key iblock stored)
       else .ok (c.decrypt ea key iblock stored)) := by
  unfold read_folio_codec
  rw [if_pos he, hu, if_neg (by simp)]

/-- Unfolding equation for the read_folio codec stage with encryption
applying and the filesystem locked: the -EPERM exit of file.c:167-175. -/
theorem read_codec_eq_locked (c : Codec) (comp_a ea : Nat)
    (unlocked : Bool) (key : Nat → Nat) (iblock : Nat) (stored : Block)
    (he : ea ≠ ENC_NONE ∧ lolelffs_enc_supported c ea = true)
    (hu : unlocked = false) :
    read_folio_codec c comp_a ea unlocked key iblock stored =
      .error EPERM := by
  unfold read_folio_codec
  rw [if_pos he, hu, if_pos rfl]

/-- Unfolding equation for the read_folio codec stage with encryption not
applying. -/
theorem read_codec_eq_noenc (c : Codec) (comp_a ea : Nat)
    (unlocked : Bool) (key : Nat → Nat) (iblock : Nat) (stored : Block)
    (he : ¬ (ea ≠ ENC_NONE ∧ lolelffs_enc_supported c ea = true)) :
    read_folio_codec c comp_a ea unlocked key iblock stored =
      (if comp_a ≠ COMP_NONE ∧ lolelffs_comp_supported c comp_a = true
       then lolelffs_decompress_block c comp_a stored
       else .ok stored) := by
  unfold read_folio_codec
  rw [if_neg he]

/-- One-block round trip: the read_folio codec stage applied to what the
writepage codec stage stored, at the algorithm ids the write recorded,
returns exactly the plaintext block. -/
theorem write_then_read_block_ok (c : Codec) (sbi : SbiState)
    (hdec : ∀ a k n b, c.decrypt a k n (c.encrypt a k n b) = b)
    (hcomp : ∀ a b sz cb, c.compress a b = some (sz, cb) → sz < BLOCK_SIZE →
      c.decompress a (padBlock cb sz) = some b)
    (hunlock : sbi.enc_enabled = true → sbi.enc_unlocked = true)
    (iblock : Nat) (data : Block) :
    write_then_read_block c sbi iblock data = .ok data := by
  unfold write_then_read_block writepage_pipeline read_folio_pipeline
  by_cases he :
      (if sbi.enc_enabled then sbi.enc_default_algo else ENC_NONE) ≠
        ENC_NONE ∧
      lolelffs_enc_supported c
        (if sbi.enc_enabled then sbi.enc_default_algo else ENC_NONE) = true
  · have hen : sbi.enc_enabled = true := by
      by_contra hcon
      apply he.1
      have hB : sbi.enc_enabled = false := by
        cases hb : sbi.enc_enabled
        · rfl
        · exact absurd hb hcon
      rw [hB]
      simp
    have hu : sbi.enc_unlocked = true := hunlock hen
    rw [writepage_codec_eq_enc c _ _ _ _ iblock data he hu]
    show read_folio_codec c _ _ _ _ _ _ = .ok data
    rw [read_codec_eq_enc c _ _ _ _ iblock _ he hu, hdec]
    exact comp_step_read_ok c _ data hcomp
  · rw [writepage_codec_eq_noenc c _ _ _ _ iblock data he]
    show read_folio_codec c _ _ _ _ _ _ = .ok data
    rw [read_codec_eq_noenc c _ _ _ _ iblock _ (by simp)]
    exact comp_step_read_ok c _ data hcomp

/-- One-byte round trip: writing the block holding byte `p` and reading
byte `p` back yields the merged content's byte. -/
theorem write_then_read_byte_ok (c : Codec) (sbi : SbiState)
    (hdec : ∀ a k n b, c.decrypt a k n (c.encrypt a k n b) = b)
    (hcomp : ∀ a b sz cb, c.compress a b = some (sz, cb) → sz < BLOCK_SIZE →
      c.decompress a (padBlock cb sz) = some b)
    (hunlock : sbi.enc_enabled = true → sbi.enc_unlocked = true)
    (content : Nat → Nat) (p : Nat) :
    write_then_read_byte c sbi content p = .ok (content p) := by
  unfold write_then_read_byte
  rw [write_then_read_block_ok c sbi hdec hcomp hunlock (p / BLOCK_SIZE)
    (fileBlock content (p / BLOCK_SIZE))]
  show Except.ok (fileBlock content (p / BLOCK_SIZE) (p % BLOCK_SIZE)) =
    Except.ok (content p)
  unfold fileBlock
  rw [Nat.div_add_mod]

/-- Reading back a byte range yields exactly the merged content's bytes. -/
theorem write_then_read_range_eq (c : Codec) (sbi : SbiState)
    (hdec : ∀ a k n b, c.decrypt a k n (c.encrypt a k n b) = b)
    (hcomp : ∀ a b sz cb, c.compress a b = some (sz, cb) → sz < BLOCK_SIZE →
      c.decompress a (padBlock cb sz) = some b)
    (hunlock : sbi.enc_enabled = true → sbi.enc_unlocked = true)
    (content : Nat → Nat) :
    ∀ n p, write_then_read_range c sbi content p n =
      .ok (rangeBytes content p n) := by
  intro n
  induction n with
  | zero => intro p; rfl
  | succ n ih =>
    intro p
    simp only [write_then_read_range, rangeBytes]
    rw [write_then_read_byte_ok c sbi hdec hcomp hunlock content p,
      ih (p + 1)]

/-- rangeBytes depends only on the content inside the read window. -/
theorem rangeBytes_congr : ∀ (n : Nat) (c1 c2 : Nat → Nat) (p : Nat),
    (∀ q, p ≤ q → q < p + n → c1 q = c2 q) →
    rangeBytes c1 p n = rangeBytes c2 p n := by
  intro n
  induction n with
  | zero => intros; rfl
  | succ n ih =>
    intro c1 c2 p h
    show c1 p :: rangeBytes c1 (p + 1) n = c2 p :: rangeBytes c2 (p + 1) n
    rw [h p (Nat.le_refl _) (by omega), ih c1 c2 (p + 1)
      (fun q h1 h2 => h q (by omega) (by omega))]

/-- Reading the overwritten window back from the merged content returns
exactly the written bytes. -/
theorem rangeBytes_overwrite : ∀ (bytes : List Nat) (content : Nat → Nat)
    (off : Nat),
    rangeBytes (overwrite content off bytes) off bytes.length = bytes := by
  intro bytes
  induction bytes with
  | nil => intro content off; rfl
  | cons b tl ih =>
    intro content off
    show overwrite content off (b :: tl) off ::
      rangeBytes (overwrite content off (b :: tl)) (off + 1) tl.length =
      b :: tl
    have hhead : overwrite content off (b :: tl) off = b := by
      unfold overwrite
      rw [if_pos ⟨Nat.le_refl _, by simp⟩, Nat.sub_self]
      rfl
    have htail : rangeBytes (overwrite content off (b :: tl)) (off + 1)
        tl.length = tl := by
      rw [rangeBytes_congr tl.length (overwrite content off (b :: tl))
        (overwrite content (off + 1) tl) (off + 1) ?_]
      · exact ih content (off + 1)
      · intro q h1 h2
        unfold overwrite
        rw [if_pos ⟨by omega, by simp only [List.length_cons]; omega⟩,
          if_pos ⟨by omega, by omega⟩]
        have hq : q - off = (q - (off + 1)) + 1 := by omega
        rw [hq, List.getD_cons_succ]
    rw [hhead, htail]

/-- C5 (amended to the code's integer threshold): on the write path the
block is stored compressed — nonzero used_comp_algo — iff compression is
configured and supported and lolelffs_compress_block succeeds with a
compressed size strictly below `LOLELFFS_BLOCK_SIZE * 95 / 100` (= 3891,
integer division); otherwise the block is stored uncompressed, the
plaintext kept and the extent's compressed flag left clear, and when
compressed the flag is set. -/
theorem writepage_compression_decision (c : Codec) (ca : Nat)
    (data : Block) :
    ((writepage_comp_step c ca data).2.1 ≠ COMP_NONE ↔
      ca ≠ COMP_NONE ∧ lolelffs_comp_supported c ca = true ∧
      ∃ sz cb, lolelffs_compress_block c ca data = .ok (sz, cb) ∧
        sz < BLOCK_SIZE * 95 / 100) ∧
    ((writepage_comp_step c ca data).2.1 = COMP_NONE →
      (writepage_comp_step c ca data).1 = data ∧
      (writepage_comp_step c ca data).2.2 = 0) ∧
    ((writepage_comp_step c ca data).2.1 ≠ COMP_NONE →
      (writepage_comp_step c ca data).2.2 = EXT_COMPRESSED) := by
  by_cases h1 : ca ≠ COMP_NONE ∧ lolelffs_comp_supported c ca = true
  · rcases hcb : lolelffs_compress_block c ca data with er | ⟨sz, cb⟩
    · rw [comp_step_eq_err c ca data er hcb]
      refine ⟨⟨fun hne => absurd rfl hne, ?_⟩, fun _ => ⟨rfl, rfl⟩,
        fun hne => absurd rfl hne⟩
      rintro ⟨-, -, sz', cb', hcb', -⟩
      exact absurd hcb' (fun h => Except.noConfusion h)
    · rw [comp_step_eq_ok c ca data sz cb h1 hcb]
      by_cases hsz : sz < BLOCK_SIZE * 95 / 100
      · rw [if_pos hsz]
        exact ⟨⟨fun _ => ⟨h1.1, h1.2, sz, cb, rfl, hsz⟩,
          fun _ => h1.1⟩, fun h => absurd h h1.1, fun _ => rfl⟩
      · rw [if_neg hsz]
        refine ⟨⟨fun hne => absurd rfl hne, ?_⟩, fun _ => ⟨rfl, rfl⟩,
          fun hne => absurd rfl hne⟩
        rintro ⟨-, -, sz', cb', hcb', hsz'⟩
        injection hcb' with heq
        injection heq with h1eq h2eq
        exact absurd (by rw [h1eq]; exact hsz') hsz
  · rw [comp_step_eq_off c ca data h1]
    refine ⟨⟨fun hne => absurd rfl hne, ?_⟩, fun _ => ⟨rfl, rfl⟩,
      fun hne => absurd rfl hne⟩
    rintro ⟨ha, hb, -⟩
    exact absurd ⟨ha, hb⟩ h1

/-- Witness for `writepage_compression_decision`: with a codec whose LZ4
compressor reports 100 bytes, the decision stores the block compressed and
sets the COMPRESSED extent flag. -/
theorem writepage_compression_decision_witness :
    (writepage_comp_step smallCompCodec COMP_LZ4 zeroBlockB).2.1 ≠
      COMP_NONE ∧
    (writepage_comp_step smallCompCodec COMP_LZ4 zeroBlockB).2.2 =
      EXT_COMPRESSED := by
  have h := writepage_compression_decision smallCompCodec COMP_LZ4 zeroBlockB
  have hne : (writepage_comp_step smallCompCodec COMP_LZ4 zeroBlockB).2.1 ≠
      COMP_NONE :=
    h.1.mpr ⟨by decide, by rfl, 100, zeroBlockB, by rfl, by decide⟩
  exact ⟨hne, h.2.2 hne⟩

/-- C5 counterexample to the literal claim: a block whose compressed size
is 3891 bytes satisfies the claim's strict-95 % condition
(3891 < 4096 * 0.95 = 3891.2, i.e. 3891 * 100 < 4096 * 95), yet the code's
integer threshold `comp_size < LOLELFFS_BLOCK_SIZE * 95 / 100 = 3891`
(file.c:322) rejects it and the block is stored uncompressed with
algorithm none and no flag. -/
theorem compress_threshold_counterexample :
    3891 * 100 < 4096 * 95 ∧
    boundaryCodec.compress COMP_LZ4 zeroBlockB = some (3891, zeroBlockB) ∧
    lolelffs_compress_block boundaryCodec COMP_LZ4 zeroBlockB =
      .ok (3891, zeroBlockB) ∧
    writepage_comp_step boundaryCodec COMP_LZ4 zeroBlockB =
      (zeroBlockB, COMP_NONE, 0) := by
  have hcb : lolelffs_compress_block boundaryCodec COMP_LZ4 zeroBlockB =
      .ok (3891, zeroBlockB) := by
    unfold lolelffs_compress_block
    rw [if_neg (by decide), if_neg (by decide)]
    show (if 3891 ≥ BLOCK_SIZE then (Except.error E2BIG : Except Int (Nat × Block))
      else .ok (3891, zeroBlockB)) = .ok (3891, zeroBlockB)
    rw [if_neg (by decide)]
  refine ⟨by decide, rfl, hcb, ?_⟩
  rw [comp_step_eq_ok boundaryCodec COMP_LZ4 zeroBlockB 3891 zeroBlockB
    ⟨by decide, by rfl⟩ hcb, if_neg (by decide)]

/-- C1: reading back a just-written byte range returns exactly the bytes
written, for every byte offset and byte string (aligned or unaligned),
over every combination of compression and encryption settings, provided
the filesystem is unlocked whenever encryption is enabled and the codec
primitives satisfy their round-trip contract (compress-then-encrypt on
write is inverted by decrypt-then-decompress on read). -/
theorem write_read_roundtrip (c : Codec) (sbi : SbiState)
    (hdec : ∀ a k n b, c.decrypt a k n (c.encrypt a k n b) = b)
    (hcomp : ∀ a b sz cb, c.compress a b = some (sz, cb) → sz < BLOCK_SIZE →
      c.decompress a (padBlock cb sz) = some b)
    (hunlock : sbi.enc_enabled = true → sbi.enc_unlocked = true)
    (content : Nat → Nat) (off : Nat) (bytes : List Nat) :
    write_then_read_range c sbi (overwrite content off bytes) off
      bytes.length = .ok bytes := by
  rw [write_then_read_range_eq c sbi hdec hcomp hunlock
    (overwrite content off bytes) bytes.length off,
    rangeBytes_overwrite bytes content off]

/-- Witness for `write_read_roundtrip`: a 3-byte unaligned write at offset
5 on an encrypted, unlocked filesystem with a concrete inverse-xor codec
reads back exactly `[1, 2, 3]`. -/
theorem write_read_roundtrip_witness :
    write_then_read_range xorCodec encSbi
      (overwrite (fun _ => 9) 5 [1, 2, 3]) 5 3 = .ok [1, 2, 3] := by
  exact write_read_roundtrip xorCodec encSbi
    (by
      intro a k n b
      funext j
      show b j ^^^ (n ^^^ k j) ^^^ (n ^^^ k j) = b j
      rw [Nat.xor_assoc, Nat.xor_self, Nat.xor_zero])
    (fun a b sz cb h _ => Option.noConfusion h)
    (fun _ => rfl)
    (fun _ => 9) 5 [1, 2, 3]

/-- C2: for a block whose extent records a supported non-none encryption
algorithm on an encrypted filesystem, reading while locked fails with
-EPERM, and writing while locked fails with -EPERM leaving the backing
store unchanged; once unlocked, writing the block and reading it back
succeed and return the data. -/
theorem encrypted_locked_eperm (c : Codec) (sbi : SbiState) (e : Extent)
    (disk : Nat → Block) (phys iblock : Nat) (stored data : Block)
    (hdec : ∀ a k n b, c.decrypt a k n (c.encrypt a k n b) = b)
    (hcomp : ∀ a b sz cb, c.compress a b = some (sz, cb) → sz < BLOCK_SIZE →
      c.decompress a (padBlock cb sz) = some b)
    (henc : e.ee_enc_algo ≠ ENC_NONE)
    (hsup : lolelffs_enc_supported c e.ee_enc_algo = true)
    (hsbe : sbi.enc_enabled = true)
    (hsba : sbi.enc_default_algo = e.ee_enc_algo) :
    (sbi.enc_unlocked = false →
      read_folio_pipeline c sbi e.ee_comp_algo e.ee_enc_algo iblock stored =
        .error EPERM ∧
      lolelffs_writepage_store c sbi disk phys iblock data =
        (.error EPERM, disk)) ∧
    (sbi.enc_unlocked = true →
      write_then_read_block c sbi iblock data = .ok data) := by
  constructor
  · intro hl
    have hea : (if sbi.enc_enabled then sbi.enc_default_algo else ENC_NONE) =
        e.ee_enc_algo := by
      rw [hsbe]
      simp [hsba]
    constructor
    · unfold read_folio_pipeline
      rw [read_codec_eq_locked c _ _ _ _ iblock stored ⟨henc, hsup⟩ hl]
    · unfold lolelffs_writepage_store
      have hw : writepage_pipeline c sbi iblock data = .error EPERM := by
        unfold writepage_pipeline
        rw [hea]
        exact writepage_codec_eq_locked c _ _ _ _ iblock data
          ⟨henc, hsup⟩ hl
      rw [hw]
  · intro hu
    exact write_then_read_block_ok c sbi hdec hcomp (fun _ => hu)
      iblock data

/-- Witness for `encrypted_locked_eperm`: on a locked AES-configured
filesystem the read and the write of an encrypted block both fail with
-EPERM (the disk untouched), and on the unlocked one the write-then-read
of the same block succeeds. -/
theorem encrypted_locked_eperm_witness :
    (read_folio_pipeline xorCodec lockedSbi sampleEncExtent.ee_comp_algo
        sampleEncExtent.ee_enc_algo 7 zeroBlockB = .error EPERM ∧
      lolelffs_writepage_store xorCodec lockedSbi (fun _ => zeroBlockB) 42 7
        zeroBlockB = (.error EPERM, fun _ => zeroBlockB)) ∧
    write_then_read_block xorCodec encSbi 7 zeroBlockB = .ok zeroBlockB := by
  constructor
  · exact (encrypted_locked_eperm xorCodec lockedSbi sampleEncExtent
      (fun _ => zeroBlockB) 42 7 zeroBlockB zeroBlockB
      (by
        intro a k n b
        funext j
        show b j ^^^ (n ^^^ k j) ^^^ (n ^^^ k j) = b j
        rw [Nat.xor_assoc, Nat.xor_self, Nat.xor_zero])
      (fun a b sz cb h _ => Option.noConfusion h)
      (by decide) (by decide) rfl rfl).1 rfl
  · exact (encrypted_locked_eperm xorCodec encSbi sampleEncExtent
      (fun _ => zeroBlockB) 42 7 zeroBlockB zeroBlockB
      (by
        intro a k n b
        funext j
        show b j ^^^ (n ^^^ k j) ^^^ (n ^^^ k j) = b j
        rw [Nat.xor_assoc, Nat.xor_self, Nat.xor_zero])
      (fun a b sz cb h _ => Option.noConfusion h)
      (by decide) (by decide) rfl rfl).2 rfl

end Lolelffs
